import Mathlib

/-!
Shallow embedding of the SQLMINT relational engine, translated from the C++
sources: common/types.h, storage/table.cpp, storage/metadata.cpp,
parser/tokenizer.cpp and parser/parser.cpp.

Modeling conventions:
  - std::string values are lists of characters (List Char);
  - file contents are the list of characters of the file, split into lines
    with the semantics of std::getline;
  - C++ exceptions become Except/Option error results, with the original
    messages where they matter;
  - std::map of table name to schema is a list of schemas kept strictly
    sorted by name (the map iteration order);
  - C++ int is Int together with explicit 32-bit range conditions at the
    places where the code itself can overflow (std::stoi);
  - loops that walk an index are structural recursions on the remaining
    input; the two loops without a structural measure (tokenize, the parser
    column/value loops, the metadata line loop) take a fuel argument that
    the callers instantiate with more than the input length, which the
    progress of the loop body makes sufficient.
-/

deriving instance DecidableEq for Except

namespace SqlMint

/-! ## common/types.h -/

inductive TokenType where
  | IDENTIFIER | INTEGER_LITERAL | STRING_LITERAL | BOOLEAN_LITERAL
  | CREATE | DROP | TABLE | INSERT | INTO | SELECT | FROM | WHERE | VALUES
  | INTEGER | VARCHAR | BOOLEAN
  | PRIMARY | KEY | NOT | NULL_KEYWORD
  | EQUALS | NOT_EQUALS | LESS_THAN | GREATER_THAN | LESS_EQUAL | GREATER_EQUAL
  | SEMICOLON | COMMA | LEFT_PAREN | RIGHT_PAREN | ASTERISK
  | END_OF_FILE | UNKNOWN
deriving DecidableEq

inductive DataType where
  | INTEGER | VARCHAR | BOOLEAN
deriving DecidableEq

inductive ConstraintType where
  | PRIMARY_KEY | NOT_NULL
deriving DecidableEq

/-- Value = std::variant of int, std::string, bool (alternative order matters
for the built-in variant comparisons). -/
inductive Value where
  | vInt (i : Int)
  | vStr (s : List Char)
  | vBool (b : Bool)
deriving DecidableEq

structure Token where
  type : TokenType
  value : List Char
  line : Nat
  col : Nat
deriving DecidableEq

structure Column where
  name : List Char
  type : DataType
  varchar_length : Int
  is_primary_key : Bool
  is_not_null : Bool
deriving DecidableEq

structure TableSchema where
  name : List Char
  columns : List Column
deriving DecidableEq

structure WhereCond where
  column_name : List Char
  operator_type : TokenType
  value : Value
deriving DecidableEq

inductive Stmt where
  | createTable (table_name : List Char) (columns : List Column)
  | dropTable (table_name : List Char)
  | insert (table_name : List Char) (values : List Value)
  | select (table_name : List Char) (select_all : Bool) (cond : Option WhereCond)
deriving DecidableEq

/-! ## Character classification (C locale, as used through cctype) -/

def isSpaceC (c : Char) : Bool :=
  c.toNat = 32 || c.toNat = 9 || c.toNat = 10 || c.toNat = 11 ||
  c.toNat = 12 || c.toNat = 13

def isDigitC (c : Char) : Bool :=
  48 ≤ c.toNat && c.toNat ≤ 57

def isAlphaC (c : Char) : Bool :=
  (65 ≤ c.toNat && c.toNat ≤ 90) || (97 ≤ c.toNat && c.toNat ≤ 122)

def toUpperC (c : Char) : Char :=
  if 97 ≤ c.toNat ∧ c.toNat ≤ 122 then Char.ofNat (c.toNat - 32) else c

/-! ## Decimal formatting and std::stoi -/

/-- One decimal digit, as produced by the stream insertion of an int. -/
def digitToChar (d : Nat) : Char :=
  match d with
  | 0 => '0' | 1 => '1' | 2 => '2' | 3 => '3' | 4 => '4'
  | 5 => '5' | 6 => '6' | 7 => '7' | 8 => '8' | _ => '9'

/-- Decimal digits of a natural number, most significant first; the fuel is
one more than the number, which the division by ten makes sufficient. -/
def natDigitsF : Nat → Nat → List Char
  | 0, _ => []
  | fuel + 1, n =>
    if n < 10 then [digitToChar n]
    else natDigitsF fuel (n / 10) ++ [digitToChar (n % 10)]

def natToChars (n : Nat) : List Char :=
  natDigitsF (n + 1) n

/-- The text an ostringstream produces for an int value. -/
def intToChars (i : Int) : List Char :=
  if i < 0 then '-' :: natToChars i.natAbs else natToChars i.toNat

def digitVal (c : Char) : Nat := c.toNat - 48

def digitsVal (l : List Char) : Nat :=
  l.foldl (fun a c => 10 * a + digitVal c) 0

def intMin : Int := -(2 ^ 31)

def intMax : Int := 2 ^ 31 - 1

/-- The digit-run parse and range check of std::stoi, after whitespace and
sign handling: a nonempty digit run is converted (further characters are
ignored); invalid_argument when no digits, out_of_range when the signed
value does not fit in int. -/
def stoiParse (neg : Bool) (l2 : List Char) : Except String Int :=
  let ds := l2.takeWhile (fun c => isDigitC c)
  if ds = [] then .error "stoi: invalid argument"
  else
    let v : Int := if neg then -(digitsVal ds : Int) else (digitsVal ds : Int)
    if v < intMin ∨ intMax < v then .error "stoi: out of range"
    else .ok v

/-- std::stoi: skip whitespace, take an optional sign, then parse the digit
run. -/
def stoi (l : List Char) : Except String Int :=
  match l.dropWhile (fun c => isSpaceC c) with
  | '-' :: r => stoiParse true r
  | '+' :: r => stoiParse false r
  | l1 => stoiParse false l1

/-! ## Value comparison (std::variant relational operators, C++17 semantics:
cross-alternative comparisons are decided by the alternative index and never
throw) -/

def Value.variantIndex : Value → Nat
  | .vInt _ => 0
  | .vStr _ => 1
  | .vBool _ => 2

/-- std::string operator < : lexicographic on character values. -/
def strLt : List Char → List Char → Bool
  | _, [] => false
  | [], _ :: _ => true
  | a :: as, b :: bs =>
    if a.toNat < b.toNat then true
    else if b.toNat < a.toNat then false
    else strLt as bs

def valueEqB : Value → Value → Bool
  | .vInt a, .vInt b => a = b
  | .vStr a, .vStr b => a = b
  | .vBool a, .vBool b => a = b
  | _, _ => false

def valueNeB : Value → Value → Bool
  | .vInt a, .vInt b => ¬(a = b)
  | .vStr a, .vStr b => ¬(a = b)
  | .vBool a, .vBool b => ¬(a = b)
  | _, _ => true

def valueLtB (l r : Value) : Bool :=
  match l, r with
  | .vInt a, .vInt b => a < b
  | .vStr a, .vStr b => strLt a b
  | .vBool a, .vBool b => !a && b
  | _, _ => l.variantIndex < r.variantIndex

def valueGtB (l r : Value) : Bool :=
  match l, r with
  | .vInt a, .vInt b => b < a
  | .vStr a, .vStr b => strLt b a
  | .vBool a, .vBool b => !b && a
  | _, _ => r.variantIndex < l.variantIndex

def valueLeB (l r : Value) : Bool :=
  match l, r with
  | .vInt a, .vInt b => a ≤ b
  | .vStr a, .vStr b => !strLt b a
  | .vBool a, .vBool b => !a || b
  | _, _ => l.variantIndex < r.variantIndex

def valueGeB (l r : Value) : Bool :=
  match l, r with
  | .vInt a, .vInt b => b ≤ a
  | .vStr a, .vStr b => !strLt a b
  | .vBool a, .vBool b => !b || a
  | _, _ => r.variantIndex < l.variantIndex

/-- TableStorage::compare_values. The try/catch around the variant
comparisons is dead code: none of them throws, so the cross-variant results
of the variant operators flow through unchanged. -/
def compare_values (left right : Value) (op : TokenType) : Bool :=
  match op with
  | .EQUALS => valueEqB left right
  | .NOT_EQUALS => valueNeB left right
  | .LESS_THAN => valueLtB left right
  | .GREATER_THAN => valueGtB left right
  | .LESS_EQUAL => valueLeB left right
  | .GREATER_EQUAL => valueGeB left right
  | _ => false

/-! ## storage/table.cpp : row serialization and scans -/

/-- The escaping loop of TableStorage::serialize_value for VARCHAR data. -/
def escapeChars : List Char → List Char
  | [] => []
  | c :: rest =>
    if c = '|' then '\\' :: '|' :: escapeChars rest
    else if c = '\\' then '\\' :: '\\' :: escapeChars rest
    else if c = '\n' then '\\' :: 'n' :: escapeChars rest
    else if c = '\r' then '\\' :: 'r' :: escapeChars rest
    else c :: escapeChars rest

def unescMap (next : Char) : Char :=
  if next = '|' then '|'
  else if next = '\\' then '\\'
  else if next = 'n' then '\n'
  else if next = 'r' then '\r'
  else next

/-- The unescaping loop of TableStorage::deserialize_value: a backslash with
a following character maps the pair; a trailing backslash passes through. -/
def unescapeChars : List Char → List Char
  | [] => []
  | c :: rest =>
    if c = '\\' then
      match rest with
      | [] => [c]
      | next :: rest2 => unescMap next :: unescapeChars rest2
    else c :: unescapeChars rest

/-- TableStorage::serialize_value; std::get on a mismatched variant throws. -/
def serialize_value (value : Value) (ty : DataType) : Except String (List Char) :=
  match ty, value with
  | .INTEGER, .vInt i => .ok (intToChars i)
  | .VARCHAR, .vStr s => .ok (escapeChars s)
  | .BOOLEAN, .vBool b => .ok (if b then ['1'] else ['0'])
  | _, _ => .error "bad variant access"

/-- Join of the per-column serializations with a pipe between consecutive
fields (the i > 0 test in TableStorage::serialize_row). -/
def serializeFields : List (Value × Column) → Except String (List Char)
  | [] => .ok []
  | [(v, c)] => serialize_value v c.type
  | (v, c) :: p :: rest => do
    let s ← serialize_value v c.type
    let r ← serializeFields (p :: rest)
    .ok (s ++ '|' :: r)

/-- TableStorage::serialize_row for a table whose schema has the given
columns. -/
def serialize_row (columns : List Column) (row : List Value) : Except String (List Char) :=
  if row.length ≠ columns.length then .error "Row size does not match table schema"
  else serializeFields (row.zip columns)

/-- The escape-aware pipe split of TableStorage::deserialize_row; acc is the
value_strings vector, cur the current value, esc the escaped flag. -/
def splitRowGo : List Char → List (List Char) → List Char → Bool → List (List Char)
  | [], acc, cur, _ =>
    if cur ≠ [] ∨ acc ≠ [] then acc ++ [cur] else acc
  | c :: rest, acc, cur, esc =>
    if esc then splitRowGo rest acc (cur ++ [c]) false
    else if c = '\\' then splitRowGo rest acc (cur ++ [c]) true
    else if c = '|' then splitRowGo rest (acc ++ [cur]) [] false
    else splitRowGo rest acc (cur ++ [c]) false

/-- TableStorage::deserialize_value. -/
def deserialize_value (value_str : List Char) (ty : DataType) : Except String Value :=
  match ty with
  | .INTEGER => (stoi value_str).map .vInt
  | .VARCHAR => .ok (.vStr (unescapeChars value_str))
  | .BOOLEAN => .ok (.vBool (value_str = ['1']))

def deserializeFields : List (List Char × Column) → Except String (List Value)
  | [] => .ok []
  | (s, c) :: rest => do
    let v ← deserialize_value s c.type
    let vs ← deserializeFields rest
    .ok (v :: vs)

/-- TableStorage::deserialize_row for a table whose schema has the given
columns. -/
def deserialize_row (columns : List Column) (row_str : List Char) : Except String (List Value) :=
  let value_strings := splitRowGo row_str [] [] false
  if value_strings.length ≠ columns.length then .error "Row data does not match table schema"
  else deserializeFields (value_strings.zip columns)

/-- TableStorage::select_all over the lines of the table file: skip blank
and comment lines, keep the rows that deserialize, silently drop the rest. -/
def select_all (columns : List Column) : List (List Char) → List (List Value)
  | [] => []
  | line :: rest =>
    if line = [] ∨ line.headD ' ' = '#' then select_all columns rest
    else
      match deserialize_row columns line with
      | .ok row => row :: select_all columns rest
      | .error _ => select_all columns rest

/-! ## Row well-formedness (the Row invariant of the data model) -/

/-- The variant of the value is the one the declared column type stores. -/
def variantOkB (v : Value) (ty : DataType) : Bool :=
  match ty, v with
  | .INTEGER, .vInt _ => true
  | .VARCHAR, .vStr _ => true
  | .BOOLEAN, .vBool _ => true
  | _, _ => false

/-- One value satisfies the Row invariant against one column: matching
variant, int values in the range of the C++ int carrier, Varchar data within
maxLen. -/
def valueFitsB (v : Value) (c : Column) : Bool :=
  match c.type, v with
  | .INTEGER, .vInt i => decide (intMin ≤ i ∧ i ≤ intMax)
  | .VARCHAR, .vStr s => decide ((s.length : Int) ≤ c.varchar_length)
  | .BOOLEAN, .vBool _ => true
  | _, _ => false

/-- The Row invariant: positional length match plus per-column fit. -/
def rowMatchesB : List Value → List Column → Bool
  | [], [] => true
  | v :: vs, c :: cs => valueFitsB v c && rowMatchesB vs cs
  | _, _ => false

/-- Length and variants of a returned row, the shape claim of select_all. -/
def rowShapeOkB : List Value → List Column → Bool
  | [], [] => true
  | v :: vs, c :: cs => variantOkB v c.type && rowShapeOkB vs cs
  | _, _ => false

/-! ## storage/metadata.cpp : schema catalog and its persistence -/

/-- The character test of one colon-delimited std::getline. -/
def notColon (c : Char) : Bool :=
  ¬ c = ':'

/-- One std::getline with delimiter colon on an istringstream: the
characters up to the first colon, and the stream after it (empty result on
an exhausted stream). -/
def getlineCol (l : List Char) : List Char × List Char :=
  (l.takeWhile notColon, (l.dropWhile notColon).drop 1)

/-- MetadataManager::serialize_data_type. -/
def serialize_data_type (ty : DataType) : List Char :=
  match ty with
  | .INTEGER => "INTEGER".toList
  | .VARCHAR => "VARCHAR".toList
  | .BOOLEAN => "BOOLEAN".toList

/-- MetadataManager::deserialize_data_type. -/
def deserialize_data_type (s : List Char) : Except String DataType :=
  if s = "INTEGER".toList then .ok .INTEGER
  else if s = "VARCHAR".toList then .ok .VARCHAR
  else if s = "BOOLEAN".toList then .ok .BOOLEAN
  else .error "Unknown data type"

/-- MetadataManager::serialize_column: COLUMN:name:type:len:pk:notnull, the
length written as 0 for every non-VARCHAR column. -/
def serialize_column (c : Column) : List Char :=
  "COLUMN:".toList ++ c.name ++ [':'] ++ serialize_data_type c.type ++ [':'] ++
  (if c.type = .VARCHAR then intToChars c.varchar_length else ['0']) ++ [':'] ++
  (if c.is_primary_key then ['1'] else ['0']) ++ [':'] ++
  (if c.is_not_null then ['1'] else ['0'])

/-- MetadataManager::deserialize_column: five colon-delimited getline calls,
the last one reading to the end of the line. -/
def deserialize_column (column_str : List Char) : Except String Column :=
  let p1 := getlineCol column_str
  let p2 := getlineCol p1.2
  let p3 := getlineCol p2.2
  match deserialize_data_type p3.1 with
  | .error e => .error e
  | .ok ty =>
    let p4 := getlineCol p3.2
    match stoi p4.1 with
    | .error e => .error e
    | .ok len =>
      let p5 := getlineCol p4.2
      .ok ⟨p2.1, ty, len, p5.1 = ['1'], p5.2 = ['1']⟩

/-- The lines MetadataManager::save_metadata writes: the two header
comments, a blank line, then per table the TABLE line, its COLUMN lines and
a separating blank line, in map iteration order. -/
def save_metadata_lines (tables : List TableSchema) : List (List Char) :=
  "# SQL Database Engine Metadata".toList ::
  "# Format: TABLE:name:column_count followed by column definitions".toList ::
  [] ::
  tables.flatMap (fun t =>
    ("TABLE:".toList ++ t.name ++ [':'] ++ natToChars t.columns.length) ::
    (t.columns.map serialize_column ++ [[]]))

/-- Each written line is terminated by a newline character. -/
def joinLines (ls : List (List Char)) : List Char :=
  (ls.map (fun l => l ++ ['\n'])).flatten

/-- MetadataManager::save_metadata as the full character content of the
metadata file. -/
def save_metadata (tables : List TableSchema) : List Char :=
  joinLines (save_metadata_lines tables)

/-- std::getline line splitting of a whole file: lines are cut at newline
characters and a trailing newline does not open a final empty line. -/
def linesGo : List Char → List Char → List (List Char)
  | [], cur => [cur]
  | c :: rest, cur =>
    if c = '\n' then
      if rest = [] then [cur] else cur :: linesGo rest []
    else linesGo rest (cur ++ [c])

def linesOfChars : List Char → List (List Char)
  | [] => []
  | c :: rest => linesGo (c :: rest) []

/-- std::map insertion: tables[name] = schema on a name-sorted list. -/
def mapInsert (t : TableSchema) : List TableSchema → List TableSchema
  | [] => [t]
  | s :: ss =>
    if strLt t.name s.name then t :: s :: ss
    else if t.name = s.name then t :: ss
    else s :: mapInsert t ss

/-- The column-reading inner loop of MetadataManager::load_metadata: each of
the counted lines is deserialized in order, and the first failure
propagates. -/
def deserializeColumnsList : List (List Char) → Except String (List Column)
  | [] => .ok []
  | line :: rest =>
    match deserialize_column line with
    | .error e => .error e
    | .ok c =>
      match deserializeColumnsList rest with
      | .error e => .error e
      | .ok cs => .ok (c :: cs)

/-- The line loop of MetadataManager::load_metadata: skip blank and comment
lines, and for each TABLE line read its column count lines as columns; the
fuel exceeds the number of lines, and every round consumes at least the head
line. -/
def loadLines : Nat → List (List Char) → List TableSchema → Except String (List TableSchema)
  | 0, _, _ => .error "line loop fuel exhausted"
  | _ + 1, [], acc => .ok acc
  | fuel + 1, line :: rest, acc =>
    if line = [] ∨ line.headD ' ' = '#' then loadLines fuel rest acc
    else if line.take 6 = "TABLE:".toList then
      let p1 := getlineCol line
      let p2 := getlineCol p1.2
      match stoi p2.2 with
      | .error e => .error e
      | .ok cnt =>
        let cntN := cnt.toNat
        if rest.length < cntN then .error "Incomplete table definition in metadata"
        else
          match deserializeColumnsList (rest.take cntN) with
          | .error e => .error e
          | .ok cols => loadLines fuel (rest.drop cntN) (mapInsert ⟨p2.1, cols⟩ acc)
    else loadLines fuel rest acc

/-- MetadataManager::load_metadata into a fresh catalog, from the character
content of the metadata file. -/
def load_metadata (content : List Char) : Except String (List TableSchema) :=
  loadLines ((linesOfChars content).length + 1) (linesOfChars content) []

/-- MetadataManager::table_exists. -/
def table_exists (tables : List TableSchema) (table_name : List Char) : Bool :=
  tables.any (fun t => t.name = table_name)

/-- MetadataManager::get_table_schema. -/
def get_table_schema (tables : List TableSchema) (table_name : List Char) : Option TableSchema :=
  tables.find? (fun t => t.name = table_name)

/-- The in-memory registry together with the persisted metadata file. -/
structure CatalogState where
  tables : List TableSchema
  file : List Char
deriving DecidableEq

/-- The per-column validation loop of MetadataManager::create_table: empty
name check, duplicate check against the names already seen, primary key
count, VARCHAR length check; returns the primary key count. -/
def checkColumnsLoop : List Column → List (List Char) → Nat → Except String Nat
  | [], _, pk => .ok pk
  | c :: rest, seen, pk =>
    if c.name = [] then .error "Column name cannot be empty"
    else if c.name ∈ seen then .error "Duplicate column name"
    else
      let seen2 := seen ++ [c.name]
      let pk2 := if c.is_primary_key then pk + 1 else pk
      if c.type = .VARCHAR ∧ c.varchar_length ≤ 0 then
        .error "VARCHAR length must be positive"
      else checkColumnsLoop rest seen2 pk2

/-- MetadataManager::create_table as a state transition: on any thrown
error the state is returned unchanged, on success the schema is registered
and the catalog persisted by save_metadata. -/
def create_table (st : CatalogState) (table_name : List Char) (columns : List Column) :
    CatalogState × Option String :=
  if table_exists st.tables table_name then (st, some "Table already exists")
  else if table_name = [] then (st, some "Table name cannot be empty")
  else if columns = [] then (st, some "Table must have at least one column")
  else
    match checkColumnsLoop columns [] 0 with
    | .error e => (st, some e)
    | .ok pk =>
      if pk > 1 then (st, some "Table can have at most one primary key")
      else
        let tables2 := mapInsert ⟨table_name, columns⟩ st.tables
        (⟨tables2, save_metadata tables2⟩, none)

/-- The type and length switch of MetadataManager::validate_insert_values
for one value against one column: the specific overlong-string error comes
before the generic mismatch error. -/
def validateLoop : List (Value × Column) → Option String
  | [] => none
  | (v, c) :: rest =>
    match c.type, v with
    | .INTEGER, .vInt _ => validateLoop rest
    | .VARCHAR, .vStr s =>
      if (s.length : Int) > c.varchar_length then some "String too long for column"
      else validateLoop rest
    | .BOOLEAN, .vBool _ => validateLoop rest
    | _, _ => some "Type mismatch for column"

/-- MetadataManager::validate_insert_values against a resolved schema. -/
def validate_insert_schema (schema : TableSchema) (values : List Value) : Option String :=
  if values.length ≠ schema.columns.length then some "INSERT value count differs from schema"
  else validateLoop (values.zip schema.columns)

/-- MetadataManager::validate_insert_values. -/
def validate_insert_values (tables : List TableSchema) (table_name : List Char)
    (values : List Value) : Option String :=
  match get_table_schema tables table_name with
  | none => some "Table does not exist"
  | some schema => validate_insert_schema schema values

/-- The same columns with the NOT NULL flags rewritten by f. -/
def setNotNull (f : Column → Bool) (schema : TableSchema) : TableSchema :=
  ⟨schema.name, schema.columns.map (fun c => ⟨c.name, c.type, c.varchar_length, c.is_primary_key, f c⟩)⟩

/-! ## parser/tokenizer.cpp -/

/-- The keyword table, keyed by the uppercase spelling. -/
def keywords : List (List Char × TokenType) :=
  [("CREATE".toList, .CREATE), ("DROP".toList, .DROP), ("TABLE".toList, .TABLE),
   ("INSERT".toList, .INSERT), ("INTO".toList, .INTO), ("SELECT".toList, .SELECT),
   ("FROM".toList, .FROM), ("WHERE".toList, .WHERE), ("VALUES".toList, .VALUES),
   ("INTEGER".toList, .INTEGER), ("VARCHAR".toList, .VARCHAR),
   ("BOOLEAN".toList, .BOOLEAN), ("PRIMARY".toList, .PRIMARY),
   ("KEY".toList, .KEY), ("NOT".toList, .NOT), ("NULL".toList, .NULL_KEYWORD),
   ("TRUE".toList, .BOOLEAN_LITERAL), ("FALSE".toList, .BOOLEAN_LITERAL)]

def keywordLookup (w : List Char) : Option TokenType :=
  (keywords.find? (fun p => p.1 = w)).map (fun p => p.2)

/-- Tokenizer::is_alpha: isalpha or underscore. -/
def isIdentStartC (c : Char) : Bool := isAlphaC c || c = '_'

/-- Tokenizer::is_alnum: isalnum or underscore. -/
def isIdentC (c : Char) : Bool := isAlphaC c || isDigitC c || c = '_'

/-- The tokenizer cursor: the unread input and the current position. -/
structure LexState where
  rest : List Char
  line : Nat
  col : Nat
deriving DecidableEq

/-- Position update of Tokenizer::advance for one consumed character. -/
def advPos (c : Char) (line col : Nat) : Nat × Nat :=
  if c = '\n' then (line + 1, 1) else (line, col + 1)

/-- Tokenizer::skip_whitespace. -/
def skipWsGo : List Char → Nat → Nat → LexState
  | [], line, col => ⟨[], line, col⟩
  | c :: rest, line, col =>
    if isSpaceC c then skipWsGo rest (advPos c line col).1 (advPos c line col).2
    else ⟨c :: rest, line, col⟩

def skipWs (s : LexState) : LexState :=
  skipWsGo s.rest s.line s.col

/-- The consuming loop of Tokenizer::skip_comment: advance until a newline
or the end of input, leaving the newline unread. -/
def skipCommentGo : List Char → Nat → Nat → LexState
  | [], line, col => ⟨[], line, col⟩
  | c :: rest, line, col =>
    if c = '\n' then ⟨c :: rest, line, col⟩
    else skipCommentGo rest line (col + 1)

/-- Tokenizer::skip_comment: only entered when the next character is a dash
and a second dash follows within the input. -/
def skipComment (s : LexState) : LexState :=
  match s.rest with
  | c1 :: c2 :: _ =>
    if c1 = '-' ∧ c2 = '-' then skipCommentGo s.rest s.line s.col else s
  | _ => s

/-- The collection loop of Tokenizer::read_identifier: the identifier run
and the remaining input. -/
def readIdentGo : List Char → List Char × List Char
  | [] => ([], [])
  | c :: rest =>
    if isIdentC c then
      let p := readIdentGo rest
      (c :: p.1, p.2)
    else ([], c :: rest)

/-- Tokenizer::read_identifier: uppercase the run, return a keyword token
with the uppercase value on a hit, otherwise an identifier with the raw
spelling. -/
def read_identifier (s : LexState) : Token × LexState :=
  let p := readIdentGo s.rest
  let upper := p.1.map toUpperC
  match keywordLookup upper with
  | some ty => (⟨ty, upper, s.line, s.col⟩, ⟨p.2, s.line, s.col + p.1.length⟩)
  | none => (⟨.IDENTIFIER, p.1, s.line, s.col⟩, ⟨p.2, s.line, s.col + p.1.length⟩)

def readNumGo : List Char → List Char × List Char
  | [] => ([], [])
  | c :: rest =>
    if isDigitC c then
      let p := readNumGo rest
      (c :: p.1, p.2)
    else ([], c :: rest)

/-- Tokenizer::read_number. -/
def read_number (s : LexState) : Token × LexState :=
  let p := readNumGo s.rest
  (⟨.INTEGER_LITERAL, p.1, s.line, s.col⟩, ⟨p.2, s.line, s.col + p.1.length⟩)

/-- Escape mapping of Tokenizer::read_string; an unknown escape passes the
literal character through. -/
def escMap (e : Char) : Char :=
  if e = 'n' then '\n'
  else if e = 't' then '\t'
  else if e = 'r' then '\r'
  else if e = '\\' then '\\'
  else if e = '\'' then '\''
  else e

/-- The body loop of Tokenizer::read_string, after the opening quote:
collected value, remaining input and final position, or the unterminated
string error. -/
def readStrGo : List Char → Nat → Nat → Except String (List Char × List Char × Nat × Nat)
  | [], _, _ => .error "Unterminated string literal"
  | c :: rest, line, col =>
    if c = '\'' then .ok ([], rest, line, col + 1)
    else if c = '\\' then
      match rest with
      | [] => .error "Unterminated string literal"
      | e :: rest2 =>
        let q1 := advPos c line col
        let q2 := advPos e q1.1 q1.2
        (readStrGo rest2 q2.1 q2.2).map (fun r => (escMap e :: r.1, r.2.1, r.2.2.1, r.2.2.2))
    else
      let q := advPos c line col
      (readStrGo rest q.1 q.2).map (fun r => (c :: r.1, r.2.1, r.2.2.1, r.2.2.2))

/-- Tokenizer::read_string, entered with the opening quote unread. -/
def read_string (s : LexState) : Except String (Token × LexState) :=
  match s.rest with
  | [] => .error "Unterminated string literal"
  | _ :: rest =>
    match readStrGo rest s.line (s.col + 1) with
    | .error e => .error e
    | .ok r => .ok (⟨.STRING_LITERAL, r.1, s.line, s.col⟩, ⟨r.2.1, r.2.2.1, r.2.2.2⟩)

/-- Tokenizer::read_operator: longest match on the comparison operators, an
unknown token for a bare exclamation mark. -/
def read_operator (s : LexState) : Token × LexState :=
  match s.rest with
  | [] => (⟨.UNKNOWN, ['\x00'], s.line, s.col⟩, s)
  | c :: rest =>
    if c = '=' then (⟨.EQUALS, ['='], s.line, s.col⟩, ⟨rest, s.line, s.col + 1⟩)
    else if c = '!' then
      match rest with
      | '=' :: rest2 => (⟨.NOT_EQUALS, "!=".toList, s.line, s.col⟩, ⟨rest2, s.line, s.col + 2⟩)
      | _ => (⟨.UNKNOWN, ['!'], s.line, s.col⟩, ⟨rest, s.line, s.col + 1⟩)
    else if c = '<' then
      match rest with
      | '=' :: rest2 => (⟨.LESS_EQUAL, "<=".toList, s.line, s.col⟩, ⟨rest2, s.line, s.col + 2⟩)
      | '>' :: rest2 => (⟨.NOT_EQUALS, "<>".toList, s.line, s.col⟩, ⟨rest2, s.line, s.col + 2⟩)
      | _ => (⟨.LESS_THAN, ['<'], s.line, s.col⟩, ⟨rest, s.line, s.col + 1⟩)
    else if c = '>' then
      match rest with
      | '=' :: rest2 => (⟨.GREATER_EQUAL, ">=".toList, s.line, s.col⟩, ⟨rest2, s.line, s.col + 2⟩)
      | _ => (⟨.GREATER_THAN, ['>'], s.line, s.col⟩, ⟨rest, s.line, s.col + 1⟩)
    else (⟨.UNKNOWN, [c], s.line, s.col⟩, ⟨rest, s.line, s.col + 1⟩)

/-- The single-character token type of the final switch of
Tokenizer::next_token. -/
def punctType (c : Char) : TokenType :=
  if c = ';' then .SEMICOLON
  else if c = ',' then .COMMA
  else if c = '(' then .LEFT_PAREN
  else if c = ')' then .RIGHT_PAREN
  else if c = '*' then .ASTERISK
  else .UNKNOWN

/-- Tokenizer::next_token. -/
def next_token (s : LexState) : Except String (Token × LexState) :=
  let s3 := skipWs (skipComment (skipWs s))
  match s3.rest with
  | [] => .ok (⟨.END_OF_FILE, [], s3.line, s3.col⟩, s3)
  | c :: rest =>
    if isIdentStartC c then .ok (read_identifier s3)
    else if isDigitC c then .ok (read_number s3)
    else if c = '\'' then read_string s3
    else if c = '=' ∨ c = '!' ∨ c = '<' ∨ c = '>' then .ok (read_operator s3)
    else .ok (⟨punctType c, [c], s3.line, s3.col⟩, ⟨rest, (advPos c s3.line s3.col).1, (advPos c s3.line s3.col).2⟩)

/-- The collection loop of Tokenizer::tokenize; every non-terminal token
consumes input, so fuel beyond the input length never runs out. -/
def tokenizeGo : Nat → LexState → Except String (List Token)
  | 0, _ => .error "tokenizer fuel exhausted"
  | fuel + 1, s =>
    match next_token s with
    | .error e => .error e
    | .ok (t, s2) =>
      if t.type = .END_OF_FILE then .ok [t]
      else (tokenizeGo fuel s2).map (fun ts => t :: ts)

/-- Tokenizer::tokenize from the start of the input. -/
def tokenize (input : List Char) : Except String (List Token) :=
  tokenizeGo (input.length + 1) ⟨input, 1, 1⟩

/-! ## parser/parser.cpp

The Parser object holds the token vector and a forward-only cursor; it is
modeled by passing the unread suffix of the token list. Parser::peek beyond
the end yields a static end-of-file token with the default position. -/

def eofToken : Token := ⟨.END_OF_FILE, [], 1, 1⟩

def peekT (ts : List Token) : Token :=
  ts.headD eofToken

/-- Tokenizer::token_type_to_string, used in ParseError messages. -/
def token_type_to_string (ty : TokenType) : String :=
  match ty with
  | .IDENTIFIER => "IDENTIFIER"
  | .INTEGER_LITERAL => "INTEGER_LITERAL"
  | .STRING_LITERAL => "STRING_LITERAL"
  | .BOOLEAN_LITERAL => "BOOLEAN_LITERAL"
  | .CREATE => "CREATE"
  | .DROP => "DROP"
  | .TABLE => "TABLE"
  | .INSERT => "INSERT"
  | .INTO => "INTO"
  | .SELECT => "SELECT"
  | .FROM => "FROM"
  | .WHERE => "WHERE"
  | .VALUES => "VALUES"
  | .INTEGER => "INTEGER"
  | .VARCHAR => "VARCHAR"
  | .BOOLEAN => "BOOLEAN"
  | .PRIMARY => "PRIMARY"
  | .KEY => "KEY"
  | .NOT => "NOT"
  | .NULL_KEYWORD => "NULL"
  | .EQUALS => "EQUALS"
  | .NOT_EQUALS => "NOT_EQUALS"
  | .LESS_THAN => "LESS_THAN"
  | .GREATER_THAN => "GREATER_THAN"
  | .LESS_EQUAL => "LESS_EQUAL"
  | .GREATER_EQUAL => "GREATER_EQUAL"
  | .SEMICOLON => "SEMICOLON"
  | .COMMA => "COMMA"
  | .LEFT_PAREN => "LEFT_PAREN"
  | .RIGHT_PAREN => "RIGHT_PAREN"
  | .ASTERISK => "ASTERISK"
  | .END_OF_FILE => "END_OF_FILE"
  | .UNKNOWN => "UNKNOWN"

/-- Parser::expect: consume a token of the given type or raise a
ParseError naming the expectation and the actual category. -/
def expectT (ty : TokenType) (msg : String) (ts : List Token) : Except String (List Token) :=
  if (peekT ts).type = ty then .ok ts.tail
  else .error (msg ++ ", got " ++ token_type_to_string (peekT ts).type)

/-- Parser::parse_data_type; the varchar length of an INTEGER or BOOLEAN
column stays at its initial zero. -/
def parse_data_type (ts : List Token) : Except String (DataType × Int × List Token) :=
  if (peekT ts).type = .INTEGER then .ok (.INTEGER, 0, ts.tail)
  else if (peekT ts).type = .BOOLEAN then .ok (.BOOLEAN, 0, ts.tail)
  else if (peekT ts).type = .VARCHAR then
    match expectT .LEFT_PAREN "Expected left paren after VARCHAR" ts.tail with
    | .error e => .error e
    | .ok ts2 =>
      if (peekT ts2).type = .INTEGER_LITERAL then
        match stoi (peekT ts2).value with
        | .error e => .error e
        | .ok n =>
          match expectT .RIGHT_PAREN "Expected right paren after VARCHAR length" ts2.tail with
          | .error e => .error e
          | .ok ts3 => .ok (.VARCHAR, n, ts3)
      else .error "Expected VARCHAR length"
  else .error "Expected data type"

/-- Parser::parse_constraints: the greedy PRIMARY KEY and NOT NULL loop;
each round consumes two tokens, so fuel beyond the input length never runs
out. -/
def parse_constraintsF : Nat → List Token → Except String (List ConstraintType × List Token)
  | 0, _ => .error "constraint loop fuel exhausted"
  | fuel + 1, ts =>
    if (peekT ts).type = .PRIMARY then
      match expectT .KEY "Expected KEY after PRIMARY" ts.tail with
      | .error e => .error e
      | .ok ts2 => (parse_constraintsF fuel ts2).map (fun r => (.PRIMARY_KEY :: r.1, r.2))
    else if (peekT ts).type = .NOT then
      match expectT .NULL_KEYWORD "Expected NULL after NOT" ts.tail with
      | .error e => .error e
      | .ok ts2 => (parse_constraintsF fuel ts2).map (fun r => (.NOT_NULL :: r.1, r.2))
    else .ok ([], ts)

/-- Parser::parse_column_definition. -/
def parse_column_definition (ts : List Token) : Except String (Column × List Token) :=
  if (peekT ts).type = .IDENTIFIER then
    let column_name := (peekT ts).value
    match parse_data_type ts.tail with
    | .error e => .error e
    | .ok (dt, len, ts2) =>
      match parse_constraintsF (ts2.length + 1) ts2 with
      | .error e => .error e
      | .ok (cs, ts3) =>
        .ok (⟨column_name, dt, len, decide (ConstraintType.PRIMARY_KEY ∈ cs),
             decide (ConstraintType.NOT_NULL ∈ cs)⟩, ts3)
  else .error "Expected column name"

/-- The do/while column list loop of Parser::parse_create_table: an
immediate closing paren ends the loop before any parse, and a comma
continues it. -/
def parse_columns_loop : Nat → List Token → Except String (List Column × List Token)
  | 0, _ => .error "column loop fuel exhausted"
  | fuel + 1, ts =>
    if (peekT ts).type = .RIGHT_PAREN then .ok ([], ts)
    else
      match parse_column_definition ts with
      | .error e => .error e
      | .ok (col, ts2) =>
        if (peekT ts2).type = .COMMA then
          (parse_columns_loop fuel ts2.tail).map (fun r => (col :: r.1, r.2))
        else .ok ([col], ts2)

/-- Parser::parse_create_table. -/
def parse_create_table (ts : List Token) : Except String (Stmt × List Token) :=
  match expectT .CREATE "Expected CREATE" ts with
  | .error e => .error e
  | .ok ts1 =>
    match expectT .TABLE "Expected TABLE" ts1 with
    | .error e => .error e
    | .ok ts2 =>
      if (peekT ts2).type = .IDENTIFIER then
        let table_name := (peekT ts2).value
        match expectT .LEFT_PAREN "Expected left paren" ts2.tail with
        | .error e => .error e
        | .ok ts4 =>
          match parse_columns_loop (ts4.length + 1) ts4 with
          | .error e => .error e
          | .ok (cols, ts5) =>
            match expectT .RIGHT_PAREN "Expected right paren" ts5 with
            | .error e => .error e
            | .ok ts6 => .ok (.createTable table_name cols, ts6)
      else .error "Expected table name"

/-- Parser::parse_drop_table. -/
def parse_drop_table (ts : List Token) : Except String (Stmt × List Token) :=
  match expectT .DROP "Expected DROP" ts with
  | .error e => .error e
  | .ok ts1 =>
    match expectT .TABLE "Expected TABLE" ts1 with
    | .error e => .error e
    | .ok ts2 =>
      if (peekT ts2).type = .IDENTIFIER then .ok (.dropTable (peekT ts2).value, ts2.tail)
      else .error "Expected table name"

/-- Parser::parse_value: int, string or boolean literal; the boolean text
is uppercased and compared with TRUE. -/
def parse_value (ts : List Token) : Except String (Value × List Token) :=
  if (peekT ts).type = .INTEGER_LITERAL then
    match stoi (peekT ts).value with
    | .error e => .error e
    | .ok n => .ok (.vInt n, ts.tail)
  else if (peekT ts).type = .STRING_LITERAL then .ok (.vStr (peekT ts).value, ts.tail)
  else if (peekT ts).type = .BOOLEAN_LITERAL then
    .ok (.vBool (((peekT ts).value.map toUpperC) = "TRUE".toList), ts.tail)
  else .error "Expected value"

/-- The do/while value list loop of Parser::parse_insert. -/
def parse_values_loop : Nat → List Token → Except String (List Value × List Token)
  | 0, _ => .error "value loop fuel exhausted"
  | fuel + 1, ts =>
    if (peekT ts).type = .RIGHT_PAREN then .ok ([], ts)
    else
      match parse_value ts with
      | .error e => .error e
      | .ok (v, ts2) =>
        if (peekT ts2).type = .COMMA then
          (parse_values_loop fuel ts2.tail).map (fun r => (v :: r.1, r.2))
        else .ok ([v], ts2)

/-- Parser::parse_insert. -/
def parse_insert (ts : List Token) : Except String (Stmt × List Token) :=
  match expectT .INSERT "Expected INSERT" ts with
  | .error e => .error e
  | .ok ts1 =>
    match expectT .INTO "Expected INTO" ts1 with
    | .error e => .error e
    | .ok ts2 =>
      if (peekT ts2).type = .IDENTIFIER then
        let table_name := (peekT ts2).value
        match expectT .VALUES "Expected VALUES" ts2.tail with
        | .error e => .error e
        | .ok ts3 =>
          match expectT .LEFT_PAREN "Expected left paren" ts3 with
          | .error e => .error e
          | .ok ts4 =>
            match parse_values_loop (ts4.length + 1) ts4 with
            | .error e => .error e
            | .ok (vs, ts5) =>
              match expectT .RIGHT_PAREN "Expected right paren" ts5 with
              | .error e => .error e
              | .ok ts6 => .ok (.insert table_name vs, ts6)
      else .error "Expected table name"

def comparisonOps : List TokenType :=
  [.EQUALS, .NOT_EQUALS, .LESS_THAN, .GREATER_THAN, .LESS_EQUAL, .GREATER_EQUAL]

/-- Parser::parse_where_clause. -/
def parse_where_clause (ts : List Token) : Except String (WhereCond × List Token) :=
  if (peekT ts).type = .IDENTIFIER then
    let column_name := (peekT ts).value
    let ts1 := ts.tail
    if comparisonOps.contains (peekT ts1).type then
      match parse_value ts1.tail with
      | .error e => .error e
      | .ok (v, ts2) => .ok (⟨column_name, (peekT ts1).type, v⟩, ts2)
    else .error "Expected comparison operator in WHERE clause"
  else .error "Expected column name in WHERE clause"

/-- Parser::parse_select: only SELECT star, then FROM, then an optional
WHERE clause. -/
def parse_select (ts : List Token) : Except String (Stmt × List Token) :=
  match expectT .SELECT "Expected SELECT" ts with
  | .error e => .error e
  | .ok ts1 =>
    if (peekT ts1).type = .ASTERISK then
      match expectT .FROM "Expected FROM" ts1.tail with
      | .error e => .error e
      | .ok ts3 =>
        if (peekT ts3).type = .IDENTIFIER then
          let table_name := (peekT ts3).value
          let ts4 := ts3.tail
          if (peekT ts4).type = .WHERE then
            match parse_where_clause ts4.tail with
            | .error e => .error e
            | .ok (w, ts5) => .ok (.select table_name true (some w), ts5)
          else .ok (.select table_name true none, ts4)
        else .error "Expected table name"
    else .error "Only SELECT star is currently supported"

/-- Parser::parse: a leading end-of-file token yields a null statement, a
recognized leading keyword dispatches to its production, anything else is a
ParseError. -/
def parse (ts : List Token) : Except String (Option Stmt × List Token) :=
  if (peekT ts).type = .END_OF_FILE then .ok (none, ts)
  else
    match (peekT ts).type with
    | .CREATE => (parse_create_table ts).map (fun r => (some r.1, r.2))
    | .DROP => (parse_drop_table ts).map (fun r => (some r.1, r.2))
    | .INSERT => (parse_insert ts).map (fun r => (some r.1, r.2))
    | .SELECT => (parse_select ts).map (fun r => (some r.1, r.2))
    | _ => .error "Expected SQL keyword"

/-! ## Grammar of the CREATE TABLE production, written from the statement
grammar of the specification (token categories only); the column list
production is the amended one: zero or more column definitions with an
optional trailing comma. -/

/-- type = INTEGER or BOOLEAN or VARCHAR ( intLiteral ). -/
inductive TypeToks : List Token → Prop
  | int (t : Token) : t.type = .INTEGER → TypeToks [t]
  | bool (t : Token) : t.type = .BOOLEAN → TypeToks [t]
  | varchar (t l n r : Token) : t.type = .VARCHAR → l.type = .LEFT_PAREN →
      n.type = .INTEGER_LITERAL → r.type = .RIGHT_PAREN → TypeToks [t, l, n, r]

/-- constraint* with constraint = PRIMARY KEY or NOT NULL. -/
inductive ConstrToks : List Token → Prop
  | nil : ConstrToks []
  | pk (p k : Token) (rest : List Token) : p.type = .PRIMARY → k.type = .KEY →
      ConstrToks rest → ConstrToks (p :: k :: rest)
  | nn (n u : Token) (rest : List Token) : n.type = .NOT → u.type = .NULL_KEYWORD →
      ConstrToks rest → ConstrToks (n :: u :: rest)

/-- columnDef = identifier type constraint*. -/
def ColDefToks (l : List Token) : Prop :=
  ∃ (i : Token) (ty cs : List Token),
    l = i :: (ty ++ cs) ∧ i.type = .IDENTIFIER ∧ TypeToks ty ∧ ConstrToks cs

/-- The column list between the parens: empty, a final columnDef possibly
followed by a trailing comma is not derivable here, so the three cases are
empty, one last columnDef, or a columnDef and a comma followed by a column
list (which covers the trailing comma when that list is empty). -/
inductive ColListToks : List Token → Prop
  | empty : ColListToks []
  | last (d : List Token) : ColDefToks d → ColListToks d
  | comma (d : List Token) (c : Token) (rest : List Token) : ColDefToks d →
      c.type = .COMMA → ColListToks rest → ColListToks (d ++ c :: rest)

/-- CREATE TABLE identifier ( columnList ). -/
def CreateToks (l : List Token) : Prop :=
  ∃ (tc tt ti tl : Token) (cl : List Token) (tr : Token),
    l = tc :: tt :: ti :: tl :: (cl ++ [tr]) ∧ tc.type = .CREATE ∧
    tt.type = .TABLE ∧ ti.type = .IDENTIFIER ∧ tl.type = .LEFT_PAREN ∧
    ColListToks cl ∧ tr.type = .RIGHT_PAREN

/-- Every integer literal token carries text std::stoi accepts, the
invariant the tokenizer establishes for the digit runs it emits. -/
def GoodLits (ts : List Token) : Prop :=
  ∀ t ∈ ts, t.type = .INTEGER_LITERAL → ∃ n, stoi t.value = .ok n

/-! ## Claim-side condition predicates -/

/-- The error condition of the create_table claim: name registered, empty
name, empty column list, empty or duplicate column name, more than one
primary key, or a nonpositive VARCHAR length. -/
def createErrCond (st : CatalogState) (table_name : List Char) (columns : List Column) : Prop :=
  table_exists st.tables table_name = true ∨ table_name = [] ∨ columns = [] ∨
  (∃ c ∈ columns, c.name = []) ∨ ¬ (columns.map Column.name).Nodup ∨
  1 < columns.countP (fun c => c.is_primary_key) ∨
  (∃ c ∈ columns, c.type = .VARCHAR ∧ c.varchar_length ≤ 0)

/-- The per-position error condition of the validate_insert_values claim:
mismatched variant, or an overlong string in a VARCHAR column. -/
def insertPairBadB (v : Value) (c : Column) : Bool :=
  match c.type, v with
  | .INTEGER, .vInt _ => false
  | .VARCHAR, .vStr s => decide ((s.length : Int) > c.varchar_length)
  | .BOOLEAN, .vBool _ => false
  | _, _ => true

/-- Names a metadata round trip relies on: no colon (the field separator)
and no newline (the line separator). -/
def cleanName (n : List Char) : Prop :=
  ':' ∉ n ∧ '\n' ∉ n

/-! ## Proof-support definitions -/

/-- A serialized field is well escaped: no raw pipe, every backslash starts
a two-character escape pair. The splitter keeps such a field whole. -/
def fieldOkB : List Char → Bool
  | [] => true
  | c :: rest =>
    if c = '\\' then
      match rest with
      | [] => false
      | _ :: r2 => fieldOkB r2
    else if c = '|' then false
    else fieldOkB rest

/-- The pipe join of a list of serialized fields. -/
def joinPipe : List (List Char) → List Char
  | [] => []
  | [f] => f
  | f :: g :: rest => f ++ '|' :: joinPipe (g :: rest)

/-- The shape the splitter state takes after a partially read first field. -/
def consMerge (cur : List Char) : List (List Char) → List (List Char)
  | [] => [cur]
  | f :: rest => (cur ++ f) :: rest

/-- The per-field serializations of a zipped row. -/
def serializeValuesList : List (Value × Column) → Except String (List (List Char))
  | [] => .ok []
  | p :: rest =>
    match serialize_value p.1 p.2.type with
    | .error e => .error e
    | .ok s =>
      match serializeValuesList rest with
      | .error e => .error e
      | .ok fs => .ok (s :: fs)

/-! ## Theorems -/

/-! ### Claim C2: cross-variant comparison results -/

/-- C2. The claim that compare_values returns false for every pair of
mismatched variants and every operator fails: the std::variant relational
operators never throw, so the catch block is dead, inequality of mismatched
variants is true, and the ordering operators compare the variant indices.
Evaluated at Integer 1 against Text a. -/
theorem C2_compare_values_mismatch :
    compare_values (.vInt 1) (.vStr ['a']) .EQUALS = false ∧
    compare_values (.vInt 1) (.vStr ['a']) .NOT_EQUALS = true ∧
    compare_values (.vInt 1) (.vStr ['a']) .LESS_THAN = true ∧
    compare_values (.vInt 1) (.vStr ['a']) .LESS_EQUAL = true ∧
    compare_values (.vStr ['a']) (.vInt 1) .GREATER_THAN = true ∧
    compare_values (.vStr ['a']) (.vInt 1) .GREATER_EQUAL = true := by
  decide

/-! ### Claim C6: dispatch on the leading token -/

/-- C6 (amended). A leading token that is none of CREATE, DROP, INSERT,
SELECT raises a ParseError unless it is the end-of-input token, for which
parse returns a null statement without error. -/
theorem C6_parse_dispatch (ts : List Token)
    (h : (peekT ts).type ≠ .CREATE ∧ (peekT ts).type ≠ .DROP ∧
         (peekT ts).type ≠ .INSERT ∧ (peekT ts).type ≠ .SELECT) :
    ((peekT ts).type = .END_OF_FILE → parse ts = .ok (none, ts)) ∧
    ((peekT ts).type ≠ .END_OF_FILE → parse ts = .error "Expected SQL keyword") := by
  obtain ⟨h1, h2, h3, h4⟩ := h
  constructor
  · intro he
    simp [parse, he]
  · intro he
    cases hty : (peekT ts).type <;> simp [parse, hty] <;>
      simp [hty] at h1 h2 h3 h4 he

/-- C6 counterexample to the claim as stated: on the token sequence that
consists only of the end-of-input token, parse returns a null statement
successfully instead of raising a ParseError. -/
theorem C6_counterexample :
    parse [⟨.END_OF_FILE, [], 1, 1⟩] = .ok (none, [⟨.END_OF_FILE, [], 1, 1⟩]) := by
  decide

/-- C6 witness: the amended theorem applied to a lone semicolon token. -/
theorem C6_witness :
    ((peekT [⟨.SEMICOLON, [';'], 1, 1⟩]).type = .END_OF_FILE →
      parse [⟨.SEMICOLON, [';'], 1, 1⟩] = .ok (none, [⟨.SEMICOLON, [';'], 1, 1⟩])) ∧
    ((peekT [⟨.SEMICOLON, [';'], 1, 1⟩]).type ≠ .END_OF_FILE →
      parse [⟨.SEMICOLON, [';'], 1, 1⟩] = .error "Expected SQL keyword") :=
  C6_parse_dispatch [⟨.SEMICOLON, [';'], 1, 1⟩] (by decide)

/-! ### Claim C9: shape of the rows select_all returns -/

theorem deserialize_value_variant (s : List Char) (ty : DataType) (v : Value)
    (h : deserialize_value s ty = .ok v) : variantOkB v ty = true := by
  cases ty with
  | INTEGER =>
    simp only [deserialize_value] at h
    cases hs : stoi s with
    | error e => rw [hs] at h; simp [Except.map] at h
    | ok n => rw [hs] at h; simp only [Except.map, Except.ok.injEq] at h; subst h; rfl
  | VARCHAR =>
    simp only [deserialize_value, Except.ok.injEq] at h
    subst h; rfl
  | BOOLEAN =>
    simp only [deserialize_value, Except.ok.injEq] at h
    subst h; rfl

theorem deserializeFields_shape (ss : List (List Char)) : ∀ (cols : List Column) (row : List Value),
    ss.length = cols.length → deserializeFields (ss.zip cols) = .ok row →
    rowShapeOkB row cols = true := by
  induction ss with
  | nil =>
    intro cols row hl h
    cases cols with
    | nil =>
      simp only [List.zip_nil_left, deserializeFields, Except.ok.injEq] at h
      subst h; rfl
    | cons c cs => simp at hl
  | cons s ss ih =>
    intro cols row hl h
    cases cols with
    | nil => simp at hl
    | cons c cs =>
      have hz : (s :: ss).zip (c :: cs) = (s, c) :: ss.zip cs := rfl
      rw [hz] at h
      simp only [deserializeFields, bind, Except.bind] at h
      cases h1 : deserialize_value s c.type with
      | error e => rw [h1] at h; simp at h
      | ok v =>
        rw [h1] at h
        cases h2 : deserializeFields (ss.zip cs) with
        | error e => rw [h2] at h; simp at h
        | ok vs =>
          rw [h2] at h
          simp only [Except.ok.injEq] at h
          subst h
          simp only [List.length_cons, Nat.add_right_cancel_iff] at hl
          simp only [rowShapeOkB, Bool.and_eq_true]
          exact ⟨deserialize_value_variant s c.type v h1, ih cs vs hl h2⟩

theorem deserialize_row_shape (columns : List Column) (line : List Char) (row : List Value)
    (h : deserialize_row columns line = .ok row) : rowShapeOkB row columns = true := by
  simp only [deserialize_row] at h
  split at h
  · simp at h
  · next hlen =>
    exact deserializeFields_shape _ columns row (by omega) h

theorem rowShapeOkB_length (row : List Value) : ∀ cols : List Column,
    rowShapeOkB row cols = true → row.length = cols.length := by
  induction row with
  | nil => intro cols h; cases cols with
    | nil => rfl
    | cons c cs => simp [rowShapeOkB] at h
  | cons v vs ih =>
    intro cols h
    cases cols with
    | nil => simp [rowShapeOkB] at h
    | cons c cs =>
      simp only [rowShapeOkB, Bool.and_eq_true] at h
      simp [ih cs h.2]

/-- C9. Every row select_all returns has the arity of the schema and
variants that match the declared column types; lines that fail to
deserialize are dropped, so no ill-typed or wrong-arity row escapes. -/
theorem C9_select_all_shape (columns : List Column) (lines : List (List Char)) (row : List Value)
    (h : row ∈ select_all columns lines) :
    row.length = columns.length ∧ rowShapeOkB row columns = true := by
  induction lines with
  | nil => simp [select_all] at h
  | cons line rest ih =>
    simp only [select_all] at h
    split at h
    · exact ih h
    · cases hd : deserialize_row columns line with
      | error e => rw [hd] at h; exact ih h
      | ok r =>
        rw [hd] at h
        rcases List.mem_cons.mp h with h1 | h2
        · subst h1
          have hs := deserialize_row_shape columns line row hd
          exact ⟨rowShapeOkB_length row columns hs, hs⟩
        · exact ih h2

/-- C9 witness: a table file with a comment line, a blank line, one good
row, one malformed row and one wrong-arity row, scanned against a single
INTEGER column. -/
theorem C9_witness :
    [Value.vInt 7] ∈ select_all [⟨['a'], .INTEGER, 0, false, false⟩]
      ["# c".toList, [], ['7'], ['x'], "1|2".toList] ∧
    ([Value.vInt 7].length = [(⟨['a'], .INTEGER, 0, false, false⟩ : Column)].length ∧
      rowShapeOkB [Value.vInt 7] [⟨['a'], .INTEGER, 0, false, false⟩] = true) :=
  ⟨by decide,
   C9_select_all_shape [⟨['a'], .INTEGER, 0, false, false⟩]
     ["# c".toList, [], ['7'], ['x'], "1|2".toList] [Value.vInt 7] (by decide)⟩

/-! ### Claim C4: insert validation -/

theorem validateLoop_none_iff (ps : List (Value × Column)) :
    validateLoop ps = none ↔ ∀ p ∈ ps, insertPairBadB p.1 p.2 = false := by
  induction ps with
  | nil => simp [validateLoop]
  | cons p rest ih =>
    obtain ⟨v, c⟩ := p
    have hstep : validateLoop ((v, c) :: rest) = none ↔
        (insertPairBadB v c = false ∧ validateLoop rest = none) := by
      obtain ⟨cn, cty, clen, cpk, cnn⟩ := c
      cases cty <;> cases v <;>
        simp only [validateLoop, insertPairBadB] <;> try simp
      rename_i s
      by_cases hlen : (s.length : Int) > clen
      · have : clen < (s.length : Int) := hlen
        simp [hlen, this]
      · have : ¬ clen < (s.length : Int) := hlen
        simp [hlen, this]
        intro _
        omega
    rw [hstep, ih]
    simp

theorem validateLoop_isSome_iff (ps : List (Value × Column)) :
    (validateLoop ps).isSome ↔ ∃ p ∈ ps, insertPairBadB p.1 p.2 = true := by
  rw [Option.isSome_iff_ne_none, Ne, validateLoop_none_iff]
  constructor
  · intro h
    by_contra hc
    push_neg at hc
    exact h (fun p hp => by simpa using hc p hp)
  · rintro ⟨p, hp, hb⟩ h
    have := h p hp
    rw [hb] at this
    simp at this

theorem validateLoop_map_nn (values : List Value) : ∀ (cols : List Column) (f : Column → Bool),
    validateLoop (values.zip (cols.map
      (fun c => ⟨c.name, c.type, c.varchar_length, c.is_primary_key, f c⟩))) =
    validateLoop (values.zip cols) := by
  induction values with
  | nil => intro cols f; rfl
  | cons v vs ih =>
    intro cols f
    cases cols with
    | nil => rfl
    | cons c cs =>
      obtain ⟨cn, cty, clen, cpk, cnn⟩ := c
      have h2 := ih cs f
      simp only [List.zip] at h2 ⊢
      simp only [List.map_cons, List.zipWith_cons_cons]
      cases cty <;> cases v <;> simp [validateLoop, h2]

/-- C4. With the table bound to its schema, validate_insert_values fails
exactly when the arity differs, a variant mismatches its column type, or a
string overflows its VARCHAR length; and the NOT NULL flags of the schema
never change the outcome. -/
theorem C4_validate_insert (tables : List TableSchema) (table_name : List Char)
    (values : List Value) (schema : TableSchema)
    (h : get_table_schema tables table_name = some schema) :
    ((validate_insert_values tables table_name values).isSome ↔
      (values.length ≠ schema.columns.length ∨
       ∃ p ∈ values.zip schema.columns, insertPairBadB p.1 p.2 = true)) ∧
    (∀ f : Column → Bool, validate_insert_schema (setNotNull f schema) values =
      validate_insert_values tables table_name values) := by
  have hv : validate_insert_values tables table_name values =
      validate_insert_schema schema values := by
    simp [validate_insert_values, h]
  constructor
  · rw [hv]
    unfold validate_insert_schema
    by_cases hlen : values.length = schema.columns.length
    · simp only [hlen, ne_eq, not_true_eq_false, ite_false, false_or, if_false]
      exact validateLoop_isSome_iff (values.zip schema.columns)
    · simp [hlen]
  · intro f
    rw [hv]
    unfold validate_insert_schema setNotNull
    simp only [List.length_map, validateLoop_map_nn]

/-- C4 witness: a users-style schema with a NOT NULL flag set; a fitting
row passes, and flag rewrites do not change the outcome. -/
theorem C4_witness :
    get_table_schema [⟨['t'], [⟨['a'], .INTEGER, 0, false, true⟩]⟩] ['t'] =
      some ⟨['t'], [⟨['a'], .INTEGER, 0, false, true⟩]⟩ ∧
    ((validate_insert_values [⟨['t'], [⟨['a'], .INTEGER, 0, false, true⟩]⟩] ['t']
        [Value.vInt 3]).isSome ↔
      (([Value.vInt 3].length ≠ [(⟨['a'], .INTEGER, 0, false, true⟩ : Column)].length) ∨
       ∃ p ∈ [Value.vInt 3].zip [(⟨['a'], .INTEGER, 0, false, true⟩ : Column)],
         insertPairBadB p.1 p.2 = true)) :=
  ⟨by decide,
   (C4_validate_insert [⟨['t'], [⟨['a'], .INTEGER, 0, false, true⟩]⟩] ['t']
     [Value.vInt 3] ⟨['t'], [⟨['a'], .INTEGER, 0, false, true⟩]⟩ (by decide)).1⟩


/-! ### Claims C3 and C10: create_table -/

theorem checkColumnsLoop_ok_iff (cols : List Column) : ∀ (seen : List (List Char)) (pk : Nat),
    (∃ p, checkColumnsLoop cols seen pk = .ok p) ↔
    ((∀ c ∈ cols, c.name ≠ []) ∧ (∀ c ∈ cols, c.name ∉ seen) ∧
     (cols.map Column.name).Nodup ∧
     (∀ c ∈ cols, ¬(c.type = .VARCHAR ∧ c.varchar_length ≤ 0))) := by
  induction cols with
  | nil => simp [checkColumnsLoop]
  | cons c rest ih =>
    intro seen pk
    simp only [checkColumnsLoop]
    by_cases h1 : c.name = []
    · simp [h1]
    · by_cases h2 : c.name ∈ seen
      · simp [h1, h2]
      · by_cases h3 : c.type = .VARCHAR ∧ c.varchar_length ≤ 0
        · simp [h1, h2, h3]
        · rw [if_neg h1, if_neg h2, if_neg h3]
          rw [ih]
          simp only [List.forall_mem_cons, List.mem_append, List.mem_singleton,
            List.map_cons, List.nodup_cons, List.mem_map, not_or, not_exists, not_and,
            imp_and, forall_and]
          tauto

theorem checkColumnsLoop_ok_val (cols : List Column) : ∀ (seen : List (List Char)) (pk p : Nat),
    checkColumnsLoop cols seen pk = .ok p →
    p = pk + cols.countP (fun c => c.is_primary_key) := by
  induction cols with
  | nil =>
    intro seen pk p h
    simp only [checkColumnsLoop, Except.ok.injEq] at h
    simp [h.symm]
  | cons c rest ih =>
    intro seen pk p h
    simp only [checkColumnsLoop] at h
    split_ifs at h with h1 h2 h3 hpk
    · have := ih _ _ _ h
      simp [List.countP_cons, hpk]
      omega
    · have := ih _ _ _ h
      simp [List.countP_cons, hpk]
      omega

/-- C3. The error cases of create_table are exactly those of the claim, and
the error-free run registers the schema and persists the catalog through
save_metadata. -/
theorem C3_create_table_spec (st : CatalogState) (table_name : List Char)
    (columns : List Column) :
    ((create_table st table_name columns).2.isSome ↔ createErrCond st table_name columns) ∧
    (¬ createErrCond st table_name columns →
      create_table st table_name columns =
        (⟨mapInsert ⟨table_name, columns⟩ st.tables,
          save_metadata (mapInsert ⟨table_name, columns⟩ st.tables)⟩, none)) := by
  constructor
  · unfold create_table
    by_cases h1 : table_exists st.tables table_name = true
    · rw [if_pos h1]
      simp only [Option.isSome_some, true_iff]
      exact Or.inl h1
    · rw [if_neg h1]
      by_cases h2 : table_name = []
      · rw [if_pos h2]
        simp only [Option.isSome_some, true_iff]
        exact Or.inr (Or.inl h2)
      · rw [if_neg h2]
        by_cases h3 : columns = []
        · rw [if_pos h3]
          simp only [Option.isSome_some, true_iff]
          exact Or.inr (Or.inr (Or.inl h3))
        · rw [if_neg h3]
          cases hcl : checkColumnsLoop columns [] 0 with
          | error e =>
            simp only [Option.isSome_some, true_iff]
            have hno : ¬ ((∀ c ∈ columns, c.name ≠ []) ∧
                (∀ c ∈ columns, c.name ∉ ([] : List (List Char))) ∧
                ((columns.map Column.name).Nodup) ∧
                (∀ c ∈ columns, ¬(c.type = .VARCHAR ∧ c.varchar_length ≤ 0))) := by
              rw [← checkColumnsLoop_ok_iff columns [] 0]
              simp [hcl]
            unfold createErrCond
            rcases not_and_or.mp hno with hA | hr
            · push_neg at hA
              obtain ⟨c, hc, hcn⟩ := hA
              exact Or.inr (Or.inr (Or.inr (Or.inl ⟨c, hc, hcn⟩)))
            · rcases not_and_or.mp hr with hB | hr2
              · refine absurd (fun c _ => ?_) hB
                simp
              · rcases not_and_or.mp hr2 with hC | hD
                · exact Or.inr (Or.inr (Or.inr (Or.inr (Or.inl hC))))
                · push_neg at hD
                  obtain ⟨c, hc, hcv⟩ := hD
                  refine Or.inr (Or.inr (Or.inr (Or.inr (Or.inr (Or.inr ⟨c, hc, ?_⟩)))))
                  tauto
          | ok pk =>
            have hval := checkColumnsLoop_ok_val columns [] 0 pk hcl
            have hcond := (checkColumnsLoop_ok_iff columns [] 0).mp ⟨pk, hcl⟩
            by_cases h4 : pk > 1
            · simp only [h4, if_true, ite_true, Option.isSome_some, true_iff]
              exact Or.inr (Or.inr (Or.inr (Or.inr (Or.inr (Or.inl (by omega))))))
            · simp only [h4, if_false, ite_false, Option.isSome_none,
                Bool.false_eq_true, false_iff]
              intro herr
              unfold createErrCond at herr
              rcases herr with h | h | h | h | h | h | h
              · exact h1 h
              · exact h2 h
              · exact h3 h
              · obtain ⟨c, hc, hn⟩ := h
                exact (hcond.1 c hc) hn
              · exact h hcond.2.2.1
              · omega
              · obtain ⟨c, hc, hv⟩ := h
                exact (hcond.2.2.2 c hc) hv
  · intro hne
    unfold create_table
    have h1 : ¬ table_exists st.tables table_name = true := fun h => hne (Or.inl h)
    have h2 : ¬ table_name = [] := fun h => hne (Or.inr (Or.inl h))
    have h3 : ¬ columns = [] := fun h => hne (Or.inr (Or.inr (Or.inl h)))
    rw [if_neg h1, if_neg h2, if_neg h3]
    have hok : ∃ p, checkColumnsLoop columns [] 0 = .ok p := by
      rw [checkColumnsLoop_ok_iff]
      refine ⟨?_, ?_, ?_, ?_⟩
      · intro c hc hn
        exact hne (Or.inr (Or.inr (Or.inr (Or.inl ⟨c, hc, hn⟩))))
      · intro c hc
        simp
      · by_contra hnd
        exact hne (Or.inr (Or.inr (Or.inr (Or.inr (Or.inl hnd)))))
      · intro c hc hv
        exact hne (Or.inr (Or.inr (Or.inr (Or.inr (Or.inr (Or.inr ⟨c, hc, hv⟩))))))
    obtain ⟨pk, hcl⟩ := hok
    rw [hcl]
    have hval := checkColumnsLoop_ok_val columns [] 0 pk hcl
    have h4 : ¬ pk > 1 := by
      intro hgt
      exact hne (Or.inr (Or.inr (Or.inr (Or.inr (Or.inr (Or.inl (by omega)))))))
    simp [h4]

/-- C3 witness: a fresh catalog accepts a one-column table and persists
it. -/
theorem C3_witness :
    ¬ createErrCond ⟨[], []⟩ "users".toList [⟨"id".toList, .INTEGER, 0, true, false⟩] ∧
    create_table ⟨[], []⟩ "users".toList [⟨"id".toList, .INTEGER, 0, true, false⟩] =
      (⟨mapInsert ⟨"users".toList, [⟨"id".toList, .INTEGER, 0, true, false⟩]⟩ [],
        save_metadata (mapInsert ⟨"users".toList, [⟨"id".toList, .INTEGER, 0, true, false⟩]⟩ [])⟩,
       none) :=
  ⟨by unfold createErrCond; decide,
   (C3_create_table_spec ⟨[], []⟩ "users".toList
     [⟨"id".toList, .INTEGER, 0, true, false⟩]).2 (by unfold createErrCond; decide)⟩

/-- C10. Whenever create_table reports an error, the registry and the
persisted metadata file are exactly what they were before the call. -/
theorem C10_create_table_error_preserves (st : CatalogState) (table_name : List Char)
    (columns : List Column) (e : String)
    (h : (create_table st table_name columns).2 = some e) :
    (create_table st table_name columns).1 = st := by
  unfold create_table at h ⊢
  split_ifs at h ⊢
  · rfl
  · rfl
  · rfl
  · cases hcl : checkColumnsLoop columns [] 0 with
    | error e2 => simp
    | ok pk =>
      rw [hcl] at h
      by_cases h4 : pk > 1
      · simp [h4]
      · simp [h4] at h

/-- C10 witness: a duplicate column name leaves a nonempty catalog and its
file untouched. -/
theorem C10_witness :
    (create_table ⟨[⟨['t'], [⟨['a'], .INTEGER, 0, false, false⟩]⟩], ['x']⟩ ['u']
      [⟨['b'], .INTEGER, 0, false, false⟩, ⟨['b'], .BOOLEAN, 0, false, false⟩]).2 =
      some "Duplicate column name" ∧
    (create_table ⟨[⟨['t'], [⟨['a'], .INTEGER, 0, false, false⟩]⟩], ['x']⟩ ['u']
      [⟨['b'], .INTEGER, 0, false, false⟩, ⟨['b'], .BOOLEAN, 0, false, false⟩]).1 =
      ⟨[⟨['t'], [⟨['a'], .INTEGER, 0, false, false⟩]⟩], ['x']⟩ :=
  ⟨by decide,
   C10_create_table_error_preserves ⟨[⟨['t'], [⟨['a'], .INTEGER, 0, false, false⟩]⟩], ['x']⟩
     ['u'] [⟨['b'], .INTEGER, 0, false, false⟩, ⟨['b'], .BOOLEAN, 0, false, false⟩]
     "Duplicate column name" (by decide)⟩

/-! ### Claim C1: row serialization round trip -/

theorem natDigitsF_congr : ∀ (f1 f2 n : Nat), n < f1 → n < f2 →
    natDigitsF f1 n = natDigitsF f2 n := by
  intro f1
  induction f1 with
  | zero => intro f2 n h1 h2; omega
  | succ f ih =>
    intro f2 n h1 h2
    cases f2 with
    | zero => omega
    | succ f2b =>
      simp only [natDigitsF]
      by_cases h : n < 10
      · simp [h]
      · simp only [h, if_false, ite_false]
        have hd : n / 10 < n := Nat.div_lt_self (by omega) (by omega)
        rw [ih f2b (n / 10) (by omega) (by omega)]

theorem natToChars_lt (n : Nat) (h : n < 10) : natToChars n = [digitToChar n] := by
  simp [natToChars, natDigitsF, h]

theorem natToChars_ge (n : Nat) (h : 10 ≤ n) :
    natToChars n = natToChars (n / 10) ++ [digitToChar (n % 10)] := by
  have hd : n / 10 < n := Nat.div_lt_self (by omega) (by omega)
  show natDigitsF (n + 1) n = natToChars (n / 10) ++ [digitToChar (n % 10)]
  simp only [natDigitsF]
  rw [if_neg (by omega)]
  rw [natDigitsF_congr n (n / 10 + 1) (n / 10) (by omega) (by omega)]
  rfl

theorem isDigit_digitToChar : ∀ d, isDigitC (digitToChar d) = true
  | 0 => rfl
  | 1 => rfl
  | 2 => rfl
  | 3 => rfl
  | 4 => rfl
  | 5 => rfl
  | 6 => rfl
  | 7 => rfl
  | 8 => rfl
  | _ + 9 => rfl

theorem digitVal_digitToChar (d : Nat) (h : d < 10) : digitVal (digitToChar d) = d := by
  interval_cases d <;> rfl

theorem digitsVal_append_one (l : List Char) (c : Char) :
    digitsVal (l ++ [c]) = 10 * digitsVal l + digitVal c := by
  simp [digitsVal, List.foldl_append]

theorem digitsVal_natToChars (n : Nat) : digitsVal (natToChars n) = n := by
  induction n using Nat.strong_induction_on with
  | _ n ih =>
    by_cases h : n < 10
    · rw [natToChars_lt n h]
      simp [digitsVal, digitVal_digitToChar n h]
    · rw [natToChars_ge n (by omega), digitsVal_append_one,
        ih (n / 10) (Nat.div_lt_self (by omega) (by omega)),
        digitVal_digitToChar (n % 10) (Nat.mod_lt n (by omega))]
      omega

theorem natToChars_digits (n : Nat) : ∀ c ∈ natToChars n, isDigitC c = true := by
  induction n using Nat.strong_induction_on with
  | _ n ih =>
    by_cases h : n < 10
    · rw [natToChars_lt n h]
      intro c hc
      simp only [List.mem_singleton] at hc
      subst hc
      exact isDigit_digitToChar n
    · rw [natToChars_ge n (by omega)]
      intro c hc
      rcases List.mem_append.mp hc with h1 | h2
      · exact ih (n / 10) (Nat.div_lt_self (by omega) (by omega)) c h1
      · simp only [List.mem_singleton] at h2
        subst h2
        exact isDigit_digitToChar (n % 10)

theorem natToChars_ne_nil (n : Nat) : natToChars n ≠ [] := by
  by_cases h : n < 10
  · rw [natToChars_lt n h]; simp
  · rw [natToChars_ge n (by omega)]; simp

theorem intToChars_ne_nil (i : Int) : intToChars i ≠ [] := by
  unfold intToChars
  by_cases h : i < 0
  · simp [h]
  · simp only [h, if_false, ite_false]
    exact natToChars_ne_nil i.toNat

theorem takeWhile_all {α : Type} (p : α → Bool) :
    ∀ l : List α, (∀ c ∈ l, p c = true) → l.takeWhile p = l := by
  intro l
  induction l with
  | nil => intro h; rfl
  | cons c rest ih =>
    intro h
    have hc := h c (by simp)
    simp [List.takeWhile_cons, hc, ih (fun x hx => h x (by simp [hx]))]

theorem digit_not_space (c : Char) (h : isDigitC c = true) : isSpaceC c = false := by
  simp only [isDigitC, Bool.and_eq_true, decide_eq_true_eq] at h
  simp only [isSpaceC, Bool.or_eq_false_iff, decide_eq_false_iff_not]
  omega

theorem stoiParse_pos (l : List Char) (hne : l ≠ [])
    (hdig : ∀ x ∈ l, isDigitC x = true) (h : (digitsVal l : Int) ≤ intMax) :
    stoiParse false l = .ok (digitsVal l : Int) := by
  have hmin : intMin = -2147483648 := by decide
  have hmax : intMax = 2147483647 := by decide
  simp only [stoiParse]
  rw [takeWhile_all _ l hdig]
  rw [if_neg hne]
  simp only [Bool.false_eq_true, if_false, ite_false]
  rw [if_neg (by omega)]

theorem stoiParse_neg (l : List Char) (hne : l ≠ [])
    (hdig : ∀ x ∈ l, isDigitC x = true) (h : intMin ≤ -(digitsVal l : Int)) :
    stoiParse true l = .ok (-(digitsVal l : Int)) := by
  have hmin : intMin = -2147483648 := by decide
  have hmax : intMax = 2147483647 := by decide
  simp only [stoiParse]
  rw [takeWhile_all _ l hdig]
  rw [if_neg hne]
  simp only [if_true, ite_true]
  rw [if_neg (by omega)]

theorem stoi_natToChars (n : Nat) (h : (n : Int) ≤ intMax) :
    stoi (natToChars n) = .ok (n : Int) := by
  obtain ⟨c, rest, hl⟩ : ∃ c rest, natToChars n = c :: rest := by
    cases hx : natToChars n with
    | nil => exact absurd hx (natToChars_ne_nil n)
    | cons c rest => exact ⟨c, rest, rfl⟩
  have hdig : ∀ x ∈ natToChars n, isDigitC x = true := natToChars_digits n
  have hc : isDigitC c = true := hdig c (by rw [hl]; simp)
  have hcn : 48 ≤ c.toNat ∧ c.toNat ≤ 57 := by
    simpa [isDigitC] using hc
  have hd_all : ∀ x ∈ c :: rest, isDigitC x = true := by
    rw [← hl]; exact hdig
  have hsp : isSpaceC c = false := digit_not_space c hc
  have hdw : List.dropWhile (fun x => isSpaceC x) (c :: rest) = c :: rest := by
    rw [List.dropWhile_cons]
    simp [hsp]
  have hval : digitsVal (c :: rest) = n := by
    rw [← hl]; exact digitsVal_natToChars n
  have hc1 : c ≠ '-' := by
    intro hh
    subst hh
    exact absurd hcn (by decide)
  have hc2 : c ≠ '+' := by
    intro hh
    subst hh
    exact absurd hcn (by decide)
  rw [hl]
  simp only [stoi]
  rw [hdw]
  split
  · next heq => rw [List.cons.injEq] at heq; exact absurd heq.1 hc1
  · next heq => rw [List.cons.injEq] at heq; exact absurd heq.1 hc2
  · rw [stoiParse_pos (c :: rest) (by simp) hd_all (by rw [hval]; exact h), hval]

theorem stoi_intToChars_aux (m : Nat) (h : intMin ≤ -(m : Int)) :
    stoi ('-' :: natToChars m) = .ok (-(m : Int)) := by
  have hdw : List.dropWhile (fun x => isSpaceC x) ('-' :: natToChars m) =
      '-' :: natToChars m := by
    rw [List.dropWhile_cons]
    rw [if_neg (by decide)]
  simp only [stoi]
  rw [hdw]
  show stoiParse true (natToChars m) = _
  rw [stoiParse_neg (natToChars m) (natToChars_ne_nil _) (natToChars_digits _)
    (by rw [digitsVal_natToChars]; exact h)]
  rw [digitsVal_natToChars]

theorem stoi_intToChars (i : Int) (h1 : intMin ≤ i) (h2 : i ≤ intMax) :
    stoi (intToChars i) = .ok i := by
  by_cases hneg : i < 0
  · have hm : ((i.natAbs : Nat) : Int) = -i := by omega
    unfold intToChars
    rw [if_pos hneg]
    rw [stoi_intToChars_aux i.natAbs (by omega)]
    congr 1
    omega
  · have hn : ((i.toNat : Nat) : Int) = i := Int.toNat_of_nonneg (by omega)
    unfold intToChars
    rw [if_neg hneg]
    rw [stoi_natToChars i.toNat (by omega)]
    rw [hn]

theorem unescapeChars_cons_ne (c : Char) (l : List Char) (h : ¬ c = '\\') :
    unescapeChars (c :: l) = c :: unescapeChars l := by
  cases l <;> simp [unescapeChars, h]

theorem fieldOkB_cons_ne (c : Char) (l : List Char) (h1 : ¬ c = '\\') (h2 : ¬ c = '|') :
    fieldOkB (c :: l) = fieldOkB l := by
  cases l <;> simp [fieldOkB, h1, h2]

theorem unescape_escape (s : List Char) : unescapeChars (escapeChars s) = s := by
  induction s with
  | nil => rfl
  | cons c rest ih =>
    by_cases h1 : c = '|'
    · subst h1; simp [escapeChars, unescapeChars, unescMap, ih]
    · by_cases h2 : c = '\\'
      · subst h2; simp [escapeChars, unescapeChars, unescMap, ih]
      · by_cases h3 : c = '\n'
        · subst h3; simp [escapeChars, unescapeChars, unescMap, ih]
        · by_cases h4 : c = '\r'
          · subst h4; simp [escapeChars, unescapeChars, unescMap, ih]
          · rw [show escapeChars (c :: rest) = c :: escapeChars rest by
              simp [escapeChars, h1, h2, h3, h4]]
            rw [unescapeChars_cons_ne c _ h2, ih]

theorem escapeChars_eq_nil (s : List Char) (h : escapeChars s = []) : s = [] := by
  cases s with
  | nil => rfl
  | cons c rest =>
    exfalso
    by_cases h1 : c = '|'
    · subst h1; simp [escapeChars] at h
    · by_cases h2 : c = '\\'
      · subst h2; simp [escapeChars] at h
      · by_cases h3 : c = '\n'
        · subst h3; simp [escapeChars] at h
        · by_cases h4 : c = '\r'
          · subst h4; simp [escapeChars] at h
          · rw [show escapeChars (c :: rest) = c :: escapeChars rest by
              simp [escapeChars, h1, h2, h3, h4]] at h
            simp at h

theorem fieldOk_escape (s : List Char) : fieldOkB (escapeChars s) = true := by
  induction s with
  | nil => rfl
  | cons c rest ih =>
    by_cases h1 : c = '|'
    · subst h1; simp [escapeChars, fieldOkB, ih]
    · by_cases h2 : c = '\\'
      · subst h2; simp [escapeChars, fieldOkB, ih]
      · by_cases h3 : c = '\n'
        · subst h3; simp [escapeChars, fieldOkB, ih]
        · by_cases h4 : c = '\r'
          · subst h4; simp [escapeChars, fieldOkB, ih]
          · rw [show escapeChars (c :: rest) = c :: escapeChars rest by
              simp [escapeChars, h1, h2, h3, h4]]
            rw [fieldOkB_cons_ne c _ h2 h1]
            exact ih

theorem fieldOk_no_special (l : List Char) (h : ∀ c ∈ l, ¬ c = '\\' ∧ ¬ c = '|') :
    fieldOkB l = true := by
  induction l with
  | nil => rfl
  | cons c rest ih =>
    have hc := h c (by simp)
    rw [fieldOkB_cons_ne c rest hc.1 hc.2]
    exact ih (fun x hx => h x (by simp [hx]))

theorem fieldOk_intToChars (i : Int) : fieldOkB (intToChars i) = true := by
  apply fieldOk_no_special
  intro c hc
  have hdig : isDigitC c = true ∨ c = '-' := by
    unfold intToChars at hc
    by_cases h : i < 0
    · rw [if_pos h] at hc
      rcases List.mem_cons.mp hc with h1 | h2
      · exact Or.inr h1
      · exact Or.inl (natToChars_digits _ c h2)
    · rw [if_neg h] at hc
      exact Or.inl (natToChars_digits _ c hc)
  rcases hdig with h | h
  · simp only [isDigitC, Bool.and_eq_true, decide_eq_true_eq] at h
    constructor
    · intro hh; subst hh; simp at h
    · intro hh; subst hh; simp at h
  · subst h
    exact ⟨by decide, by decide⟩

theorem serialize_value_ok (v : Value) (c : Column) (h : valueFitsB v c = true) :
    ∃ s, serialize_value v c.type = .ok s ∧ fieldOkB s = true ∧
      deserialize_value s c.type = .ok v ∧ (s = [] → v = .vStr []) := by
  obtain ⟨cn, cty, clen, cpk, cnn⟩ := c
  cases cty with
  | INTEGER =>
    cases v with
    | vInt i =>
      have h2 : intMin ≤ i ∧ i ≤ intMax := of_decide_eq_true h
      refine ⟨intToChars i, rfl, fieldOk_intToChars i, ?_, ?_⟩
      · show (stoi (intToChars i)).map Value.vInt = Except.ok (Value.vInt i)
        rw [stoi_intToChars i h2.1 h2.2]
        rfl
      · intro hs; exact absurd hs (intToChars_ne_nil i)
    | vStr s => exact absurd h Bool.false_ne_true
    | vBool b => exact absurd h Bool.false_ne_true
  | VARCHAR =>
    cases v with
    | vInt i => exact absurd h Bool.false_ne_true
    | vStr s =>
      refine ⟨escapeChars s, rfl, fieldOk_escape s, ?_, ?_⟩
      · show Except.ok (Value.vStr (unescapeChars (escapeChars s))) =
          Except.ok (Value.vStr s)
        rw [unescape_escape]
      · intro hs
        rw [escapeChars_eq_nil s hs]
    | vBool b => exact absurd h Bool.false_ne_true
  | BOOLEAN =>
    cases v with
    | vInt i => exact absurd h Bool.false_ne_true
    | vStr s => exact absurd h Bool.false_ne_true
    | vBool b =>
      cases b with
      | true => exact ⟨['1'], rfl, rfl, rfl, by simp⟩
      | false => exact ⟨['0'], rfl, rfl, rfl, by simp⟩

theorem serializeValuesList_spec (ps : List (Value × Column))
    (h : ∀ p ∈ ps, valueFitsB p.1 p.2 = true) :
    ∃ fs, serializeValuesList ps = .ok fs ∧ fs.length = ps.length ∧
      (∀ f ∈ fs, fieldOkB f = true) ∧
      deserializeFields (fs.zip (ps.map Prod.snd)) = .ok (ps.map Prod.fst) ∧
      (fs = [[]] → ps.map Prod.fst = [Value.vStr []]) := by
  induction ps with
  | nil => exact ⟨[], rfl, rfl, by simp, rfl, by simp⟩
  | cons p rest ih =>
    obtain ⟨v, c⟩ := p
    obtain ⟨s, hs1, hs2, hs3, hs4⟩ := serialize_value_ok v c (h (v, c) (by simp))
    obtain ⟨fs, hf1, hf2, hf3, hf4, hf5⟩ := ih (fun q hq => h q (by simp [hq]))
    refine ⟨s :: fs, ?_, by simp [hf2], ?_, ?_, ?_⟩
    · simp only [serializeValuesList]
      rw [hs1, hf1]
    · intro f hf
      rcases List.mem_cons.mp hf with h1 | h2
      · subst h1; exact hs2
      · exact hf3 f h2
    · have hz : (s :: fs).zip ((c :: rest.map Prod.snd)) = (s, c) :: fs.zip (rest.map Prod.snd) := rfl
      simp only [List.map_cons]
      rw [hz]
      simp only [deserializeFields, bind, Except.bind, hs3, hf4]
    · intro hsingle
      rw [List.cons.injEq] at hsingle
      have hrest : rest = [] := by
        have := hf2
        rw [hsingle.2] at this
        simpa using List.length_eq_zero.mp this.symm
      subst hrest
      simp [hs4 hsingle.1]

theorem serializeValuesList_length (ps : List (Value × Column)) :
    ∀ fs, serializeValuesList ps = .ok fs → fs.length = ps.length := by
  induction ps with
  | nil =>
    intro fs h
    simp only [serializeValuesList, Except.ok.injEq] at h
    simp [← h]
  | cons p rest ih =>
    intro fs h
    simp only [serializeValuesList, Except.ok.injEq] at h
    cases hs : serialize_value p.1 p.2.type with
    | error e => rw [hs] at h; simp at h
    | ok s =>
      rw [hs] at h
      cases hr : serializeValuesList rest with
      | error e => rw [hr] at h; simp at h
      | ok fs2 =>
        rw [hr] at h
        simp only [Except.ok.injEq] at h
        subst h
        have := ih fs2 hr
        simp [this]

theorem serializeFields_join (ps : List (Value × Column)) :
    ∀ fs, serializeValuesList ps = .ok fs → serializeFields ps = .ok (joinPipe fs) := by
  induction ps with
  | nil =>
    intro fs h
    simp only [serializeValuesList, Except.ok.injEq] at h
    subst h
    rfl
  | cons p rest ih =>
    intro fs h
    obtain ⟨v, c⟩ := p
    simp only [serializeValuesList] at h
    cases hs : serialize_value v c.type with
    | error e => rw [hs] at h; simp at h
    | ok s =>
      rw [hs] at h
      cases hr : serializeValuesList rest with
      | error e => rw [hr] at h; simp at h
      | ok fs2 =>
        rw [hr] at h
        simp only [Except.ok.injEq] at h
        subst h
        have hjoin := ih fs2 hr
        cases rest with
        | nil =>
          have : fs2 = [] := by
            simpa using serializeValuesList_length [] fs2 hr
          subst this
          simp only [serializeFields, joinPipe, hs]
        | cons q rest2 =>
          have hlen : fs2.length = rest2.length + 1 := by
            simpa using serializeValuesList_length (q :: rest2) fs2 hr
          cases fs2 with
          | nil => simp at hlen
          | cons g rs =>
            simp only [serializeFields, hs, hjoin, bind, Except.bind, joinPipe]

theorem splitGo_field : ∀ (n : Nat) (f rest : List Char) (acc : List (List Char)) (cur : List Char),
    f.length ≤ n → fieldOkB f = true →
    splitRowGo (f ++ rest) acc cur false = splitRowGo rest acc (cur ++ f) false := by
  intro n
  induction n with
  | zero =>
    intro f rest acc cur hf hok
    have : f = [] := List.length_eq_zero.mp (by omega)
    subst this
    simp
  | succ n ih =>
    intro f rest acc cur hf hok
    cases f with
    | nil => simp
    | cons c fb =>
      by_cases hc1 : c = '\\'
      · subst hc1
        cases fb with
        | nil => simp [fieldOkB] at hok
        | cons x fc =>
          have hok2 : fieldOkB fc = true := by simpa [fieldOkB] using hok
          show splitRowGo (fc ++ rest) acc ((cur ++ ['\\']) ++ [x]) false = _
          rw [ih fc rest acc ((cur ++ ['\\']) ++ [x]) (by simp at hf ⊢; omega) hok2]
          simp
      · by_cases hc2 : c = '|'
        · subst hc2
          cases fb <;> simp [fieldOkB] at hok
        · have hok2 : fieldOkB fb = true := by rwa [fieldOkB_cons_ne c fb hc1 hc2] at hok
          simp only [List.cons_append, splitRowGo]
          rw [if_neg (by simp), if_neg hc1, if_neg hc2]
          show splitRowGo (fb ++ rest) acc (cur ++ [c]) false =
            splitRowGo rest acc (cur ++ c :: fb) false
          rw [ih fb rest acc (cur ++ [c]) (by simp at hf ⊢; omega) hok2]
          simp

theorem splitGo_join_acc : ∀ (fs : List (List Char)) (acc : List (List Char)) (cur : List Char),
    (∀ f ∈ fs, fieldOkB f = true) → acc ≠ [] →
    splitRowGo (joinPipe fs) acc cur false = acc ++ consMerge cur fs := by
  intro fs
  induction fs with
  | nil =>
    intro acc cur h hacc
    simp [joinPipe, splitRowGo, consMerge, hacc]
  | cons f rest ih =>
    intro acc cur h hacc
    cases rest with
    | nil =>
      simp only [joinPipe]
      have hs := splitGo_field f.length f [] acc cur (le_refl _) (h f (by simp))
      rw [List.append_nil] at hs
      rw [hs]
      simp [splitRowGo, consMerge, hacc]
    | cons g rs =>
      simp only [joinPipe]
      rw [splitGo_field f.length f ('|' :: joinPipe (g :: rs)) acc cur (le_refl _) (h f (by simp))]
      show splitRowGo (joinPipe (g :: rs)) (acc ++ [cur ++ f]) [] false = _
      rw [ih (acc ++ [cur ++ f]) [] (fun x hx => h x (by simp [hx])) (by simp)]
      simp [consMerge]

theorem split_joinPipe (fs : List (List Char)) (h : ∀ f ∈ fs, fieldOkB f = true)
    (hne : fs ≠ []) (h1 : fs ≠ [[]]) :
    splitRowGo (joinPipe fs) [] [] false = fs := by
  cases fs with
  | nil => exact absurd rfl hne
  | cons f rest =>
    cases rest with
    | nil =>
      have hf : f ≠ [] := by
        intro hh
        rw [hh] at h1
        exact h1 rfl
      simp only [joinPipe]
      have hs := splitGo_field f.length f [] [] [] (le_refl _) (h f (by simp))
      rw [List.append_nil] at hs
      rw [hs]
      simp [splitRowGo, hf]
    | cons g rs =>
      simp only [joinPipe]
      rw [splitGo_field f.length f ('|' :: joinPipe (g :: rs)) [] [] (le_refl _) (h f (by simp))]
      show splitRowGo (joinPipe (g :: rs)) [f] [] false = f :: g :: rs
      rw [splitGo_join_acc (g :: rs) [f] [] (fun x hx => h x (by simp [hx])) (by simp)]
      simp [consMerge]

theorem rowMatchesB_spec (row : List Value) : ∀ cols, rowMatchesB row cols = true →
    row.length = cols.length ∧ ∀ p ∈ row.zip cols, valueFitsB p.1 p.2 = true := by
  induction row with
  | nil =>
    intro cols h
    cases cols with
    | nil => exact ⟨rfl, by simp⟩
    | cons c cs => simp [rowMatchesB] at h
  | cons v vs ih =>
    intro cols h
    cases cols with
    | nil => simp [rowMatchesB] at h
    | cons c cs =>
      simp only [rowMatchesB, Bool.and_eq_true] at h
      obtain ⟨hl, hp⟩ := ih cs h.2
      refine ⟨by simp [hl], ?_⟩
      intro p hp2
      have hz : (v :: vs).zip (c :: cs) = (v, c) :: vs.zip cs := rfl
      rw [hz] at hp2
      rcases List.mem_cons.mp hp2 with hx | hx
      · subst hx; exact h.1
      · exact hp p hx

/-- C1 (amended). For every row satisfying the Row invariant of its schema,
deserializing the serialization returns the original row, except for the one
row whose serialization is an empty line: a single empty Text value, which
deserialize_row rejects as a wrong field count. -/
theorem C1_round_trip (columns : List Column) (row : List Value)
    (hrow : rowMatchesB row columns = true) (hne : row ≠ [Value.vStr []]) :
    (serialize_row columns row).bind (deserialize_row columns) = .ok row := by
  obtain ⟨hlen, hfit⟩ := rowMatchesB_spec row columns hrow
  cases row with
  | nil =>
    have hc : columns = [] := by
      cases columns with
      | nil => rfl
      | cons x xs => simp at hlen
    subst hc
    decide
  | cons v vs =>
    obtain ⟨fs, hf1, hf2, hf3, hf4, hf5⟩ := serializeValuesList_spec ((v :: vs).zip columns) hfit
    have hser : serialize_row columns (v :: vs) = .ok (joinPipe fs) := by
      unfold serialize_row
      rw [if_neg (by omega)]
      exact serializeFields_join _ _ hf1
    rw [hser]
    show deserialize_row columns (joinPipe fs) = Except.ok (v :: vs)
    have hzlen : ((v :: vs).zip columns).length = columns.length := by
      rw [List.length_zip, hlen, Nat.min_self]
    have hfs_len : fs.length = columns.length := by rw [hf2, hzlen]
    have hfs_ne : fs ≠ [] := by
      intro hh
      rw [hh] at hfs_len
      simp only [List.length_nil] at hfs_len
      simp only [List.length_cons] at hlen
      omega
    have hfs_nsingle : fs ≠ [[]] := by
      intro hh
      have hfst := hf5 hh
      rw [List.map_fst_zip _ _ (by omega)] at hfst
      exact hne hfst
    simp only [deserialize_row]
    rw [split_joinPipe fs hf3 hfs_ne hfs_nsingle]
    rw [if_neg (by omega)]
    have hsnd : ((v :: vs).zip columns).map Prod.snd = columns :=
      List.map_snd_zip _ _ (by omega)
    have hfst : ((v :: vs).zip columns).map Prod.fst = v :: vs :=
      List.map_fst_zip _ _ (by omega)
    rw [hsnd, hfst] at hf4
    exact hf4

/-- C1 counterexample to the claim as stated: the valid single-column row
holding the empty Text value serializes to the empty line, and
deserialize_row rejects that line instead of returning the row. -/
theorem C1_counterexample :
    rowMatchesB [Value.vStr []] [⟨['s'], .VARCHAR, 10, false, false⟩] = true ∧
    (serialize_row [⟨['s'], .VARCHAR, 10, false, false⟩] [Value.vStr []]).bind
      (deserialize_row [⟨['s'], .VARCHAR, 10, false, false⟩]) ≠ .ok [Value.vStr []] := by
  decide

/-- C1 witness: the users-style row with escapes in the Text value round
trips. -/
theorem C1_witness :
    rowMatchesB [Value.vInt 1, Value.vStr "A|b\\c".toList, Value.vBool true]
      [⟨"id".toList, .INTEGER, 0, true, false⟩, ⟨"name".toList, .VARCHAR, 50, false, false⟩,
       ⟨"active".toList, .BOOLEAN, 0, false, false⟩] = true ∧
    (serialize_row
      [⟨"id".toList, .INTEGER, 0, true, false⟩, ⟨"name".toList, .VARCHAR, 50, false, false⟩,
       ⟨"active".toList, .BOOLEAN, 0, false, false⟩]
      [Value.vInt 1, Value.vStr "A|b\\c".toList, Value.vBool true]).bind
      (deserialize_row
        [⟨"id".toList, .INTEGER, 0, true, false⟩, ⟨"name".toList, .VARCHAR, 50, false, false⟩,
         ⟨"active".toList, .BOOLEAN, 0, false, false⟩]) =
      .ok [Value.vInt 1, Value.vStr "A|b\\c".toList, Value.vBool true] :=
  ⟨by decide,
   C1_round_trip
     [⟨"id".toList, .INTEGER, 0, true, false⟩, ⟨"name".toList, .VARCHAR, 50, false, false⟩,
      ⟨"active".toList, .BOOLEAN, 0, false, false⟩]
     [Value.vInt 1, Value.vStr "A|b\\c".toList, Value.vBool true] (by decide) (by decide)⟩

/-! ### Claim C8: keyword case-insensitivity in the lexer -/

theorem keywords_upper_alpha :
    ∀ p ∈ keywords, ∀ c ∈ p.1, 65 ≤ c.toNat ∧ c.toNat ≤ 90 := by
  decide

theorem keywords_ne_nil : ∀ p ∈ keywords, p.1 ≠ [] := by
  decide

theorem keywords_ne_eof : ∀ p ∈ keywords, p.2 ≠ TokenType.END_OF_FILE := by
  decide

theorem keywords_lookup : ∀ p ∈ keywords, keywordLookup p.1 = some p.2 := by
  decide

theorem toUpperC_upper_alpha (c : Char)
    (h : 65 ≤ (toUpperC c).toNat ∧ (toUpperC c).toNat ≤ 90) : isAlphaC c = true := by
  unfold toUpperC at h
  split at h
  · next hlow =>
    simp only [isAlphaC, Bool.or_eq_true, Bool.and_eq_true, decide_eq_true_eq]
    omega
  · next hlow =>
    simp only [isAlphaC, Bool.or_eq_true, Bool.and_eq_true, decide_eq_true_eq]
    push_neg at hlow
    omega

theorem toUpperC_fix (c : Char) (h : 65 ≤ c.toNat ∧ c.toNat ≤ 90) : toUpperC c = c := by
  unfold toUpperC
  rw [if_neg (by omega)]

theorem alpha_not_space (c : Char) (h : isAlphaC c = true) : isSpaceC c = false := by
  simp only [isAlphaC, Bool.or_eq_true, Bool.and_eq_true, decide_eq_true_eq] at h
  simp only [isSpaceC, Bool.or_eq_false_iff, decide_eq_false_iff_not]
  omega

theorem alpha_not_dash (c : Char) (h : isAlphaC c = true) : ¬ c = '-' := by
  intro hh
  subst hh
  exact absurd h (by decide)

theorem alpha_ident (c : Char) (h : isAlphaC c = true) : isIdentC c = true := by
  simp [isIdentC, h]

theorem alpha_identStart (c : Char) (h : isAlphaC c = true) : isIdentStartC c = true := by
  simp [isIdentStartC, h]

theorem readIdentGo_all (v : List Char) (h : ∀ c ∈ v, isIdentC c = true) :
    readIdentGo v = (v, []) := by
  induction v with
  | nil => rfl
  | cons c rest ih =>
    simp only [readIdentGo, h c (by simp), if_pos]
    rw [ih (fun x hx => h x (by simp [hx]))]

theorem skipWs_no_space (c : Char) (l : List Char) (line col : Nat)
    (h : isSpaceC c = false) : skipWs ⟨c :: l, line, col⟩ = ⟨c :: l, line, col⟩ := by
  simp [skipWs, skipWsGo, h]

theorem skipComment_no_dash (c : Char) (l : List Char) (line col : Nat)
    (h : ¬ c = '-') : skipComment ⟨c :: l, line, col⟩ = ⟨c :: l, line, col⟩ := by
  cases l with
  | nil => rfl
  | cons d r =>
    simp only [skipComment]
    rw [if_neg (by intro hh; exact h hh.1)]

theorem map_toUpperC_fix (w : List Char) (h : ∀ c ∈ w, toUpperC c = c) :
    w.map toUpperC = w := by
  induction w with
  | nil => rfl
  | cons c rest ih =>
    simp only [List.map_cons, h c (by simp)]
    rw [ih (fun x hx => h x (by simp [hx]))]

theorem tokenizeGo_step (fuel : Nat) (s : LexState) (t : Token) (s2 : LexState)
    (h : next_token s = .ok (t, s2)) :
    tokenizeGo (fuel + 1) s =
      if t.type = .END_OF_FILE then .ok [t]
      else (tokenizeGo fuel s2).map (fun ts => t :: ts) := by
  simp only [tokenizeGo, h]

theorem next_token_keyword (v : List Char) (w : List Char) (ty : TokenType)
    (line col : Nat)
    (halpha : ∀ c ∈ v, isAlphaC c = true) (hne : v ≠ [])
    (hupper : v.map toUpperC = w) (hlook : keywordLookup w = some ty) :
    next_token ⟨v, line, col⟩ =
      .ok (⟨ty, w, line, col⟩, ⟨[], line, col + v.length⟩) := by
  obtain ⟨c, rest, rfl⟩ : ∃ c rest, v = c :: rest := by
    cases v with
    | nil => exact absurd rfl hne
    | cons c rest => exact ⟨c, rest, rfl⟩
  have hc : isAlphaC c = true := halpha c (by simp)
  simp only [next_token]
  rw [skipWs_no_space c rest line col (alpha_not_space c hc),
    skipComment_no_dash c rest line col (alpha_not_dash c hc),
    skipWs_no_space c rest line col (alpha_not_space c hc)]
  simp only [alpha_identStart c hc, if_pos, ite_true]
  simp only [read_identifier]
  rw [readIdentGo_all (c :: rest) (fun x hx => alpha_ident x (halpha x hx))]
  simp only [hupper, hlook]

/-- C8. Every letter-case variant of a keyword spelling lexes to the same
token list as the canonical spelling: the keyword token with the uppercase
value at line 1 column 1, then the end-of-input token. -/
theorem C8_keyword_case (w : List Char) (ty : TokenType) (v : List Char)
    (hmem : (w, ty) ∈ keywords) (hvar : v.map toUpperC = w) :
    tokenize v = .ok [⟨ty, w, 1, 1⟩, ⟨.END_OF_FILE, [], 1, v.length + 1⟩] ∧
    tokenize v = tokenize w := by
  have hupper : ∀ c ∈ w, 65 ≤ c.toNat ∧ c.toNat ≤ 90 := keywords_upper_alpha (w, ty) hmem
  have halpha : ∀ c ∈ v, isAlphaC c = true := by
    intro c hc
    refine toUpperC_upper_alpha c (hupper (toUpperC c) ?_)
    rw [← hvar]
    exact List.mem_map_of_mem toUpperC hc
  have hwalpha : ∀ c ∈ w, isAlphaC c = true := by
    intro c hc
    have := hupper c hc
    simp only [isAlphaC, Bool.or_eq_true, Bool.and_eq_true, decide_eq_true_eq]
    omega
  have hwne : w ≠ [] := keywords_ne_nil (w, ty) hmem
  have hvne : v ≠ [] := by
    intro hh
    subst hh
    exact hwne hvar.symm
  have hlen : v.length = w.length := by
    rw [← hvar, List.length_map]
  have hwvar : w.map toUpperC = w :=
    map_toUpperC_fix w (fun c hc => toUpperC_fix c (hupper c hc))
  have hty_ne : ty ≠ .END_OF_FILE := keywords_ne_eof (w, ty) hmem
  have hlook : keywordLookup w = some ty := keywords_lookup (w, ty) hmem
  have heval : ∀ (u : List Char), (∀ c ∈ u, isAlphaC c = true) → u ≠ [] →
      u.map toUpperC = w →
      tokenize u = .ok [⟨ty, w, 1, 1⟩, ⟨.END_OF_FILE, [], 1, u.length + 1⟩] := by
    intro u hu hune huv
    obtain ⟨c, rest, rfl⟩ : ∃ c rest, u = c :: rest := by
      cases u with
      | nil => exact absurd rfl hune
      | cons c rest => exact ⟨c, rest, rfl⟩
    show tokenizeGo ((c :: rest).length + 1) ⟨c :: rest, 1, 1⟩ = _
    simp only [List.length_cons]
    rw [tokenizeGo_step (rest.length + 1) ⟨c :: rest, 1, 1⟩ ⟨ty, w, 1, 1⟩
      ⟨[], 1, 1 + (c :: rest).length⟩ (next_token_keyword (c :: rest) w ty 1 1 hu (by simp) huv hlook)]
    rw [if_neg (by simpa using hty_ne)]
    have hemp : next_token ⟨([] : List Char), 1, 1 + (c :: rest).length⟩ =
        .ok (⟨.END_OF_FILE, [], 1, 1 + (c :: rest).length⟩,
             ⟨[], 1, 1 + (c :: rest).length⟩) := by
      simp [next_token, skipWs, skipWsGo, skipComment]
    rw [tokenizeGo_step rest.length ⟨[], 1, 1 + (c :: rest).length⟩
      ⟨.END_OF_FILE, [], 1, 1 + (c :: rest).length⟩ ⟨[], 1, 1 + (c :: rest).length⟩ hemp]
    rw [if_pos rfl]
    simp only [Except.map]
    have harith : 1 + (c :: rest).length = rest.length + 1 + 1 := by
      simp only [List.length_cons]
      omega
    rw [harith]
  refine ⟨heval v halpha hvne hvar, ?_⟩
  rw [heval v halpha hvne hvar, heval w hwalpha hwne hwvar, hlen]

/-- C8 witness: the spellings select, SELECT and SeLeCt all lex to the
SELECT keyword token followed by end-of-input. -/
theorem C8_witness :
    ("SELECT".toList, TokenType.SELECT) ∈ keywords ∧
    (tokenize "SeLeCt".toList =
      .ok [⟨.SELECT, "SELECT".toList, 1, 1⟩, ⟨.END_OF_FILE, [], 1, "SeLeCt".toList.length + 1⟩] ∧
     tokenize "SeLeCt".toList = tokenize "SELECT".toList) :=
  ⟨by decide, C8_keyword_case "SELECT".toList TokenType.SELECT "SeLeCt".toList
    (by decide) (by decide)⟩

/-! ### Claim C7: metadata save and reload -/

theorem linesGo_mid (l : List Char) : ∀ (cur rest : List Char), '\n' ∉ l → rest ≠ [] →
    linesGo (l ++ '\n' :: rest) cur = (cur ++ l) :: linesGo rest [] := by
  induction l with
  | nil =>
    intro cur rest hnl hrest
    simp [linesGo, hrest]
  | cons x l2 ih =>
    intro cur rest hnl hrest
    have hx : ¬ x = '\n' := by
      intro hh
      exact hnl (by simp [hh])
    simp only [List.cons_append, linesGo, if_neg hx]
    show linesGo (l2 ++ '\n' :: rest) (cur ++ [x]) = (cur ++ x :: l2) :: linesGo rest []
    rw [ih (cur ++ [x]) rest (by intro hh; exact hnl (by simp [hh])) hrest]
    simp

theorem linesGo_last (l : List Char) : ∀ (cur : List Char), '\n' ∉ l →
    linesGo (l ++ ['\n']) cur = [cur ++ l] := by
  induction l with
  | nil =>
    intro cur hnl
    simp [linesGo]
  | cons x l2 ih =>
    intro cur hnl
    have hx : ¬ x = '\n' := by
      intro hh
      exact hnl (by simp [hh])
    simp only [List.cons_append, linesGo, if_neg hx]
    show linesGo (l2 ++ ['\n']) (cur ++ [x]) = [cur ++ x :: l2]
    rw [ih (cur ++ [x]) (by intro hh; exact hnl (by simp [hh]))]
    simp

theorem linesOf_joinLines (ls : List (List Char)) (h : ∀ l ∈ ls, '\n' ∉ l) :
    linesOfChars (joinLines ls) = ls := by
  induction ls with
  | nil => rfl
  | cons l rest ih =>
    have hjoin : joinLines (l :: rest) = l ++ '\n' :: joinLines rest := by
      simp [joinLines]
    rw [hjoin]
    cases hr : joinLines rest with
    | nil =>
      have hrest : rest = [] := by
        cases rest with
        | nil => rfl
        | cons a b =>
          exfalso
          have : joinLines (a :: b) = a ++ '\n' :: joinLines b := by simp [joinLines]
          rw [this] at hr
          cases a <;> simp at hr
      subst hrest
      show linesOfChars (l ++ ['\n']) = [l]
      cases hl : l ++ ['\n'] with
      | nil => simp at hl
      | cons c cs =>
        show linesGo (c :: cs) [] = [l]
        rw [← hl]
        rw [linesGo_last l [] (h l (by simp))]
        rfl
    | cons a b =>
      have hne : joinLines rest ≠ [] := by rw [hr]; simp
      rw [← hr]
      have hsplit : linesGo (l ++ '\n' :: joinLines rest) [] = ([] ++ l) :: linesGo (joinLines rest) [] :=
        linesGo_mid l [] (joinLines rest) (h l (by simp)) hne
      cases hl : l ++ '\n' :: joinLines rest with
      | nil => simp at hl
      | cons c cs =>
        show linesGo (c :: cs) [] = l :: rest
        rw [← hl, hsplit]
        have hlin : linesOfChars (joinLines rest) = rest := ih (fun x hx => h x (by simp [hx]))
        have : linesGo (joinLines rest) [] = rest := by
          rw [hr] at hlin ⊢
          exact hlin
        rw [this]
        rfl

theorem getlineCol_split (a : List Char) (h : ':' ∉ a) : ∀ r : List Char,
    getlineCol (a ++ ':' :: r) = (a, r) := by
  induction a with
  | nil =>
    intro r
    simp [getlineCol, List.takeWhile_cons, List.dropWhile_cons, notColon]
  | cons x a2 ih =>
    intro r
    have hx : ¬ x = ':' := fun hh => h (by simp [hh])
    have hpx : notColon x = true := by simp [notColon, hx]
    have ih2 := ih (fun hh => h (List.mem_cons_of_mem x hh)) r
    have h1 : List.takeWhile notColon (a2 ++ ':' :: r) = a2 := congrArg Prod.fst ih2
    have h2 : (List.dropWhile notColon (a2 ++ ':' :: r)).drop 1 = r := congrArg Prod.snd ih2
    simp only [getlineCol, List.cons_append, List.takeWhile_cons, List.dropWhile_cons, hpx,
      if_true, ite_true]
    rw [h1, h2]

theorem dropWhile_all {α : Type} (p : α → Bool) :
    ∀ l : List α, (∀ c ∈ l, p c = true) → l.dropWhile p = [] := by
  intro l
  induction l with
  | nil => intro h; rfl
  | cons c rest ih =>
    intro h
    rw [List.dropWhile_cons]
    simp only [h c (by simp), if_true, ite_true]
    exact ih (fun x hx => h x (by simp [hx]))

theorem getlineCol_all (a : List Char) (h : ':' ∉ a) : getlineCol a = (a, []) := by
  have hall : ∀ c ∈ a, notColon c = true := by
    intro c hc
    have : ¬ c = ':' := fun hh => h (hh ▸ hc)
    simp [notColon, this]
  simp [getlineCol, takeWhile_all notColon a hall, dropWhile_all notColon a hall]

theorem intToChars_mem (i : Int) : ∀ c ∈ intToChars i, isDigitC c = true ∨ c = '-' := by
  unfold intToChars
  by_cases h : i < 0
  · rw [if_pos h]
    intro c hc
    rcases List.mem_cons.mp hc with h1 | h2
    · exact Or.inr h1
    · exact Or.inl (natToChars_digits _ c h2)
  · rw [if_neg h]
    intro c hc
    exact Or.inl (natToChars_digits _ c hc)

theorem intToChars_no_colon (i : Int) : ':' ∉ intToChars i := by
  intro hc
  rcases intToChars_mem i ':' hc with h1 | h2
  · exact absurd h1 (by decide)
  · exact absurd h2 (by decide)

theorem intToChars_no_newline (i : Int) : '\n' ∉ intToChars i := by
  intro hc
  rcases intToChars_mem i '\n' hc with h1 | h2
  · exact absurd h1 (by decide)
  · exact absurd h2 (by decide)

theorem natToChars_no_colon (n : Nat) : ':' ∉ natToChars n := by
  intro hc
  exact absurd (natToChars_digits n ':' hc) (by decide)

theorem natToChars_no_newline (n : Nat) : '\n' ∉ natToChars n := by
  intro hc
  exact absurd (natToChars_digits n '\n' hc) (by decide)

theorem deserialize_serialize_column (c : Column) (hname : ':' ∉ c.name)
    (hlen0 : c.type ≠ .VARCHAR → c.varchar_length = 0)
    (hr1 : intMin ≤ c.varchar_length) (hr2 : c.varchar_length ≤ intMax) :
    deserialize_column (serialize_column c) = .ok c := by
  obtain ⟨cn, cty, clen, cpk, cnn⟩ := c
  have hdd : deserialize_data_type (serialize_data_type cty) = .ok cty := by
    cases cty <;> decide
  have hdt_nc : ':' ∉ serialize_data_type cty := by
    cases cty <;> decide
  have hlen_nc : ':' ∉ (if cty = DataType.VARCHAR then intToChars clen else ['0']) := by
    by_cases hv : cty = DataType.VARCHAR
    · rw [if_pos hv]
      exact intToChars_no_colon clen
    · rw [if_neg hv]
      decide
  have hstoi : stoi (if cty = DataType.VARCHAR then intToChars clen else ['0']) = .ok clen := by
    by_cases hv : cty = DataType.VARCHAR
    · rw [if_pos hv]
      exact stoi_intToChars clen hr1 hr2
    · have hc0 : clen = 0 := hlen0 hv
      rw [if_neg hv, hc0]
      decide
  have hpk_nc : ':' ∉ (if cpk then ['1'] else ['0']) := by
    cases cpk <;> decide
  have hshape : serialize_column ⟨cn, cty, clen, cpk, cnn⟩ =
      "COLUMN".toList ++ ':' :: (cn ++ ':' :: (serialize_data_type cty ++ ':' ::
        ((if cty = DataType.VARCHAR then intToChars clen else ['0']) ++ ':' ::
          ((if cpk then ['1'] else ['0']) ++ ':' ::
            (if cnn then ['1'] else ['0']))))) := by
    simp [serialize_column, List.append_assoc]
  rw [hshape]
  simp only [deserialize_column, getlineCol_split "COLUMN".toList (by decide),
    getlineCol_split cn hname, getlineCol_split (serialize_data_type cty) hdt_nc,
    getlineCol_split _ hlen_nc, getlineCol_split _ hpk_nc, hdd, hstoi]
  cases cpk <;> cases cnn <;> simp

theorem deserializeColumnsList_map (cols : List Column)
    (h : ∀ c ∈ cols, ':' ∉ c.name ∧ (c.type ≠ .VARCHAR → c.varchar_length = 0) ∧
      intMin ≤ c.varchar_length ∧ c.varchar_length ≤ intMax) :
    deserializeColumnsList (cols.map serialize_column) = .ok cols := by
  induction cols with
  | nil => rfl
  | cons c rest ih =>
    obtain ⟨h1, h2, h3, h4⟩ := h c (by simp)
    simp only [List.map_cons, deserializeColumnsList,
      deserialize_serialize_column c h1 h2 h3 h4,
      ih (fun x hx => h x (by simp [hx]))]

theorem strLt_asymm (a : List Char) : ∀ b, strLt a b = true → strLt b a = false := by
  induction a with
  | nil =>
    intro b h
    cases b with
    | nil => rfl
    | cons y ys => rfl
  | cons x xs ih =>
    intro b h
    cases b with
    | nil => exact absurd h (by simp [strLt])
    | cons y ys =>
      simp only [strLt] at h ⊢
      by_cases h1 : x.toNat < y.toNat
      · rw [if_neg (by omega), if_pos h1]
      · by_cases h2 : y.toNat < x.toNat
        · rw [if_neg h1, if_pos h2] at h
          exact absurd h (by decide)
        · rw [if_neg h1, if_neg h2] at h
          rw [if_neg h2, if_neg h1]
          exact ih ys h

theorem strLt_irrefl (a : List Char) : strLt a a = false := by
  induction a with
  | nil => rfl
  | cons x xs ih => simp [strLt, Nat.lt_irrefl, ih]

theorem strLt_ne (a b : List Char) (h : strLt a b = true) : a ≠ b := by
  intro hab
  subst hab
  rw [strLt_irrefl a] at h
  exact absurd h (by decide)

theorem mapInsert_append (t : TableSchema) :
    ∀ acc, (∀ a ∈ acc, strLt a.name t.name = true) → mapInsert t acc = acc ++ [t] := by
  intro acc
  induction acc with
  | nil => intro h; rfl
  | cons s ss ih =>
    intro h
    have hs := h s (by simp)
    have h1 : strLt t.name s.name = false := strLt_asymm _ _ hs
    have h2 : t.name ≠ s.name := Ne.symm (strLt_ne _ _ hs)
    simp [mapInsert, h1, h2, ih (fun a ha => h a (List.mem_cons_of_mem s ha))]

theorem serialize_column_no_newline (c : Column) (h : '\n' ∉ c.name) :
    '\n' ∉ serialize_column c := by
  obtain ⟨cn, cty, clen, cpk, cnn⟩ := c
  have hn : '\n' ∉ cn := h
  have hi : '\n' ∉ intToChars clen := intToChars_no_newline clen
  intro hc
  cases cty <;> cases cpk <;> cases cnn <;> simp [serialize_column] at hc <;> tauto

theorem save_metadata_lines_no_newline (tables : List TableSchema)
    (h : ∀ t ∈ tables, '\n' ∉ t.name ∧ ∀ c ∈ t.columns, '\n' ∉ c.name) :
    ∀ l ∈ save_metadata_lines tables, '\n' ∉ l := by
  intro l hl
  simp only [save_metadata_lines, List.mem_cons] at hl
  rcases hl with h1 | h1 | h1 | h1
  · subst h1; decide
  · subst h1; decide
  · subst h1; simp
  · rw [List.mem_flatMap] at h1
    obtain ⟨t, ht, hlt⟩ := h1
    obtain ⟨hn, hcols⟩ := h t ht
    rcases List.mem_cons.mp hlt with h2 | h2
    · subst h2
      intro hc
      simp at hc
      rcases hc with hc | hc
      · exact hn hc
      · exact natToChars_no_newline _ hc
    · rcases List.mem_append.mp h2 with h3 | h3
      · rw [List.mem_map] at h3
        obtain ⟨c, hcm, hceq⟩ := h3
        rw [← hceq]
        exact serialize_column_no_newline c (hcols c hcm)
      · simp only [List.mem_singleton] at h3
        subst h3
        simp

theorem loadLines_table_step (fuel : Nat) (name : List Char) (cols : List Column)
    (tail : List (List Char)) (acc : List TableSchema)
    (hname : ':' ∉ name)
    (hcnt : ((cols.length : Nat) : Int) ≤ intMax)
    (hcols : deserializeColumnsList (cols.map serialize_column) = .ok cols) :
    loadLines (fuel + 1)
      (("TABLE:".toList ++ name ++ [':'] ++ natToChars cols.length)
        :: (cols.map serialize_column ++ tail)) acc =
    loadLines fuel tail (mapInsert ⟨name, cols⟩ acc) := by
  have hline : "TABLE:".toList ++ name ++ [':'] ++ natToChars cols.length =
      "TABLE".toList ++ ':' :: (name ++ ':' :: natToChars cols.length) := by
    simp [List.append_assoc]
  rw [hline]
  have hc1 : ¬("TABLE".toList ++ ':' :: (name ++ ':' :: natToChars cols.length) = [] ∨
      ("TABLE".toList ++ ':' :: (name ++ ':' :: natToChars cols.length)).headD ' ' = '#') := by
    simp
  have hc2 : ("TABLE".toList ++ ':' :: (name ++ ':' :: natToChars cols.length)).take 6 =
      "TABLE:".toList := rfl
  simp only [loadLines]
  rw [if_neg hc1, if_pos hc2]
  simp only [getlineCol_split "TABLE".toList (by decide), getlineCol_split name hname,
    stoi_natToChars cols.length hcnt, Int.toNat_natCast]
  rw [if_neg (by simp only [List.length_append, List.length_map]; omega)]
  rw [List.take_left' (by simp), hcols, List.drop_left' (by simp)]

theorem loadLines_blank_step (fuel : Nat) (tail : List (List Char)) (acc : List TableSchema) :
    loadLines (fuel + 1) ([] :: tail) acc = loadLines fuel tail acc := by
  simp [loadLines]

theorem loadLines_blank_append (fuel : Nat) (tail : List (List Char)) (acc : List TableSchema) :
    loadLines (fuel + 1) ([[]] ++ tail) acc = loadLines fuel tail acc := by
  simp [loadLines]

theorem loadLines_chunks (tables : List TableSchema) :
    ∀ (fuel : Nat) (acc : List TableSchema),
    2 * tables.length + 1 ≤ fuel →
    (∀ t ∈ tables, ':' ∉ t.name ∧ ((t.columns.length : Int) ≤ intMax) ∧
      ∀ c ∈ t.columns, ':' ∉ c.name ∧ (c.type ≠ .VARCHAR → c.varchar_length = 0) ∧
        intMin ≤ c.varchar_length ∧ c.varchar_length ≤ intMax) →
    (∀ t ∈ tables, ∀ a ∈ acc, strLt a.name t.name = true) →
    List.Pairwise (fun a b => strLt a.name b.name = true) tables →
    loadLines fuel (tables.flatMap (fun t =>
      ("TABLE:".toList ++ t.name ++ [':'] ++ natToChars t.columns.length) ::
      (t.columns.map serialize_column ++ [[]]))) acc = .ok (acc ++ tables) := by
  induction tables with
  | nil =>
    intro fuel acc hfuel _ _ _
    obtain ⟨f1, rfl⟩ : ∃ f1, fuel = f1 + 1 := ⟨fuel - 1, by omega⟩
    simp [loadLines]
  | cons t rest ih =>
    intro fuel acc hfuel hgood hacc hsorted
    obtain ⟨hhd, htl⟩ := List.pairwise_cons.mp hsorted
    have hlen : 2 * rest.length + 1 + 2 ≤ fuel := by
      simp only [List.length_cons] at hfuel
      omega
    obtain ⟨f2, rfl⟩ : ∃ f2, fuel = f2 + 1 + 1 := ⟨fuel - 2, by omega⟩
    obtain ⟨htn, hcnt, hcolsg⟩ := hgood t (by simp)
    rw [List.flatMap_cons, List.cons_append,
      List.append_assoc (List.map serialize_column t.columns)]
    rw [loadLines_table_step (f2 + 1) t.name t.columns _ acc htn hcnt
      (deserializeColumnsList_map t.columns hcolsg)]
    rw [loadLines_blank_append f2]
    rw [show (⟨t.name, t.columns⟩ : TableSchema) = t from rfl]
    rw [mapInsert_append t acc (hacc t (by simp))]
    rw [ih f2 (acc ++ [t]) (by omega) (fun x hx => hgood x (by simp [hx]))
      (fun x hx a ha => by
        rcases List.mem_append.mp ha with h1 | h1
        · exact hacc x (by simp [hx]) a h1
        · simp only [List.mem_singleton] at h1
          subst h1
          exact hhd x hx) htl]
    simp [List.append_assoc]

theorem loadLines_comment_step (fuel : Nat) (line : List Char) (tail : List (List Char))
    (acc : List TableSchema) (h : line.headD ' ' = '#') :
    loadLines (fuel + 1) (line :: tail) acc = loadLines fuel tail acc := by
  simp only [loadLines]
  rw [if_pos (Or.inr h)]

theorem chunks_length (tables : List TableSchema) :
    2 * tables.length ≤ (tables.flatMap (fun t =>
      ("TABLE:".toList ++ t.name ++ [':'] ++ natToChars t.columns.length) ::
      (t.columns.map serialize_column ++ [[]]))).length := by
  induction tables with
  | nil => simp
  | cons t rest ih =>
    simp only [List.flatMap_cons, List.length_append, List.length_cons, List.length_map]
    omega

/-- Claim C7: for every name-sorted catalog whose table and column names
contain no colon and no newline, whose VARCHAR lengths lie in the int range,
whose non-VARCHAR columns carry the stored length 0, and whose column counts
fit in an int, writing the metadata file with save_metadata and reloading it
with load_metadata reproduces exactly the same table schemas. -/
theorem C7_metadata_round_trip (tables : List TableSchema)
    (hsorted : List.Pairwise (fun a b => strLt a.name b.name = true) tables)
    (hnames : ∀ t ∈ tables, cleanName t.name ∧ ∀ c ∈ t.columns, cleanName c.name)
    (hlens : ∀ t ∈ tables, ((t.columns.length : Int) ≤ intMax) ∧
      ∀ c ∈ t.columns, (c.type ≠ .VARCHAR → c.varchar_length = 0) ∧
        intMin ≤ c.varchar_length ∧ c.varchar_length ≤ intMax) :
    load_metadata (save_metadata tables) = .ok tables := by
  have hnl : ∀ l ∈ save_metadata_lines tables, '\n' ∉ l :=
    save_metadata_lines_no_newline tables
      (fun t ht => ⟨(hnames t ht).1.2, fun c hc => ((hnames t ht).2 c hc).2⟩)
  unfold load_metadata save_metadata
  rw [linesOf_joinLines _ hnl]
  simp only [save_metadata_lines, List.length_cons]
  rw [loadLines_comment_step _ _ _ _ (by decide)]
  rw [loadLines_comment_step _ _ _ _ (by decide)]
  rw [loadLines_blank_step]
  rw [loadLines_chunks tables _ []
    (by have := chunks_length tables; omega)
    (fun t ht => ⟨(hnames t ht).1.1, (hlens t ht).1,
      fun c hc => ⟨((hnames t ht).2 c hc).1, (hlens t ht).2 c hc⟩⟩)
    (fun t ht a ha => absurd ha (List.not_mem_nil a))
    hsorted]
  simp

/-- A catalog holding an INTEGER column with the (unreachable through the
parser, but representable) varchar_length 5 reloads with length 0: the claim
fails without the stored-length hypothesis. -/
theorem C7_counterexample :
    cleanName "t".toList ∧ cleanName "a".toList ∧
    load_metadata (save_metadata
      [⟨"t".toList, [⟨"a".toList, .INTEGER, 5, false, false⟩]⟩]) =
      .ok [⟨"t".toList, [⟨"a".toList, .INTEGER, 0, false, false⟩]⟩] ∧
    ((⟨"a".toList, .INTEGER, 5, false, false⟩ : Column) ≠
      ⟨"a".toList, .INTEGER, 0, false, false⟩) := by
  refine ⟨by unfold cleanName; decide, by unfold cleanName; decide, by decide, by decide⟩

theorem C7_witness :
    load_metadata (save_metadata
      [⟨"t".toList, [⟨"v".toList, .VARCHAR, 7, false, true⟩,
        ⟨"i".toList, .INTEGER, 0, true, false⟩]⟩]) =
      .ok [⟨"t".toList, [⟨"v".toList, .VARCHAR, 7, false, true⟩,
        ⟨"i".toList, .INTEGER, 0, true, false⟩]⟩] :=
  C7_metadata_round_trip
    [⟨"t".toList, [⟨"v".toList, .VARCHAR, 7, false, true⟩,
      ⟨"i".toList, .INTEGER, 0, true, false⟩]⟩]
    (by decide)
    (by simp only [cleanName]; decide)
    (by decide)

/-! ### Claim C5: the CREATE TABLE grammar -/

theorem peekT_shape (ts : List Token) (ty : TokenType) (h : (peekT ts).type = ty)
    (hne : ty ≠ .END_OF_FILE) : ∃ t ts1, ts = t :: ts1 ∧ t.type = ty := by
  cases ts with
  | nil => exact absurd h.symm hne
  | cons t ts1 => exact ⟨t, ts1, rfl, h⟩

theorem expectT_ok (ty : TokenType) (msg : String) (ts ts2 : List Token)
    (h : expectT ty msg ts = .ok ts2) : (peekT ts).type = ty ∧ ts2 = ts.tail := by
  unfold expectT at h
  by_cases hc : (peekT ts).type = ty
  · rw [if_pos hc] at h
    exact ⟨hc, (Except.ok.inj h).symm⟩
  · rw [if_neg hc] at h
    exact absurd h (by simp)

theorem parse_data_type_sound (ts : List Token) (dt : DataType) (len : Int)
    (ts2 : List Token) (h : parse_data_type ts = .ok (dt, len, ts2)) :
    ∃ ty, ts = ty ++ ts2 ∧ TypeToks ty := by
  unfold parse_data_type at h
  by_cases h1 : (peekT ts).type = .INTEGER
  · rw [if_pos h1] at h
    obtain ⟨t, ts1, rfl, ht⟩ := peekT_shape ts _ h1 (by decide)
    simp only [Except.ok.injEq, Prod.mk.injEq] at h
    obtain ⟨hdt, hlen, hts⟩ := h
    refine ⟨[t], ?_, TypeToks.int t ht⟩
    rw [← hts]
    rfl
  · rw [if_neg h1] at h
    by_cases h2 : (peekT ts).type = .BOOLEAN
    · rw [if_pos h2] at h
      obtain ⟨t, ts1, rfl, ht⟩ := peekT_shape ts _ h2 (by decide)
      simp only [Except.ok.injEq, Prod.mk.injEq] at h
      obtain ⟨hdt, hlen, hts⟩ := h
      refine ⟨[t], ?_, TypeToks.bool t ht⟩
      rw [← hts]
      rfl
    · rw [if_neg h2] at h
      by_cases h3 : (peekT ts).type = .VARCHAR
      · rw [if_pos h3] at h
        obtain ⟨t, ts1, rfl, ht⟩ := peekT_shape ts _ h3 (by decide)
        cases hexp : expectT .LEFT_PAREN "Expected left paren after VARCHAR" (t :: ts1).tail with
        | error e =>
          rw [hexp] at h
          exact absurd h (by simp)
        | ok tsa =>
          simp only [hexp] at h
          obtain ⟨hlp, hta⟩ := expectT_ok _ _ _ _ hexp
          obtain ⟨l, ts3, hts1, hl⟩ := peekT_shape ts1 _ hlp (by decide)
          subst hts1
          have hta2 : tsa = ts3 := hta
          subst hta2
          by_cases h4 : (peekT tsa).type = .INTEGER_LITERAL
          · rw [if_pos h4] at h
            obtain ⟨nt, ts4, hts3, hn⟩ := peekT_shape tsa _ h4 (by decide)
            subst hts3
            cases hst : stoi (peekT (nt :: ts4)).value with
            | error e =>
              rw [hst] at h
              exact absurd h (by simp)
            | ok n =>
              simp only [hst] at h
              cases hexp2 : expectT .RIGHT_PAREN
                  "Expected right paren after VARCHAR length" (nt :: ts4).tail with
              | error e =>
                rw [hexp2] at h
                exact absurd h (by simp)
              | ok tsb =>
                simp only [hexp2] at h
                obtain ⟨hrp, htb⟩ := expectT_ok _ _ _ _ hexp2
                obtain ⟨rt, ts5, hts4, hr⟩ := peekT_shape ts4 _ hrp (by decide)
                subst hts4
                have htb2 : tsb = ts5 := htb
                subst htb2
                simp only [Except.ok.injEq, Prod.mk.injEq] at h
                obtain ⟨hdt, hlen, hts⟩ := h
                refine ⟨[t, l, nt, rt], ?_, TypeToks.varchar t l nt rt ht hl hn hr⟩
                rw [← hts]
                rfl
          · rw [if_neg h4] at h
            exact absurd h (by simp)
      · rw [if_neg h3] at h
        exact absurd h (by simp)

theorem parse_constraintsF_sound : ∀ (fuel : Nat) (ts : List Token)
    (out : List ConstraintType) (ts2 : List Token),
    parse_constraintsF fuel ts = .ok (out, ts2) →
    ∃ cs, ts = cs ++ ts2 ∧ ConstrToks cs := by
  intro fuel
  induction fuel with
  | zero =>
    intro ts out ts2 h
    exact absurd h (by simp [parse_constraintsF])
  | succ f ih =>
    intro ts out ts2 h
    simp only [parse_constraintsF] at h
    by_cases h1 : (peekT ts).type = .PRIMARY
    · rw [if_pos h1] at h
      obtain ⟨p, ts1, rfl, hp⟩ := peekT_shape ts _ h1 (by decide)
      cases hexp : expectT .KEY "Expected KEY after PRIMARY" (p :: ts1).tail with
      | error e =>
        rw [hexp] at h
        exact absurd h (by simp)
      | ok tsa =>
        simp only [hexp] at h
        obtain ⟨hk, hta⟩ := expectT_ok _ _ _ _ hexp
        obtain ⟨k, ts3, hts1, hkk⟩ := peekT_shape ts1 _ hk (by decide)
        subst hts1
        have hta2 : tsa = ts3 := hta
        subst hta2
        cases hrec : parse_constraintsF f tsa with
        | error e =>
          rw [hrec] at h
          exact absurd h (by simp [Except.map])
        | ok pr =>
          simp only [hrec, Except.map, Except.ok.injEq, Prod.mk.injEq] at h
          obtain ⟨hout, hts2⟩ := h
          obtain ⟨cs1, hts, hcs⟩ := ih tsa pr.1 pr.2 (by rw [hrec])
          refine ⟨p :: k :: cs1, ?_, ConstrToks.pk p k cs1 hp hkk hcs⟩
          rw [← hts2, hts]
          rfl
    · rw [if_neg h1] at h
      by_cases h2 : (peekT ts).type = .NOT
      · rw [if_pos h2] at h
        obtain ⟨p, ts1, rfl, hp⟩ := peekT_shape ts _ h2 (by decide)
        cases hexp : expectT .NULL_KEYWORD "Expected NULL after NOT" (p :: ts1).tail with
        | error e =>
          rw [hexp] at h
          exact absurd h (by simp)
        | ok tsa =>
          simp only [hexp] at h
          obtain ⟨hk, hta⟩ := expectT_ok _ _ _ _ hexp
          obtain ⟨k, ts3, hts1, hkk⟩ := peekT_shape ts1 _ hk (by decide)
          subst hts1
          have hta2 : tsa = ts3 := hta
          subst hta2
          cases hrec : parse_constraintsF f tsa with
          | error e =>
            rw [hrec] at h
            exact absurd h (by simp [Except.map])
          | ok pr =>
            simp only [hrec, Except.map, Except.ok.injEq, Prod.mk.injEq] at h
            obtain ⟨hout, hts2⟩ := h
            obtain ⟨cs1, hts, hcs⟩ := ih tsa pr.1 pr.2 (by rw [hrec])
            refine ⟨p :: k :: cs1, ?_, ConstrToks.nn p k cs1 hp hkk hcs⟩
            rw [← hts2, hts]
            rfl
      · rw [if_neg h2] at h
        simp only [Except.ok.injEq, Prod.mk.injEq] at h
        obtain ⟨hout, hts2⟩ := h
        exact ⟨[], by rw [← hts2]; rfl, ConstrToks.nil⟩

theorem parse_column_definition_sound (ts : List Token) (col : Column) (ts2 : List Token)
    (h : parse_column_definition ts = .ok (col, ts2)) :
    ∃ d, ts = d ++ ts2 ∧ ColDefToks d := by
  unfold parse_column_definition at h
  by_cases h1 : (peekT ts).type = .IDENTIFIER
  · rw [if_pos h1] at h
    obtain ⟨i, ts1, rfl, hi⟩ := peekT_shape ts _ h1 (by decide)
    cases hdt : parse_data_type (i :: ts1).tail with
    | error e =>
      rw [hdt] at h
      exact absurd h (by simp)
    | ok r1 =>
      simp only [hdt] at h
      obtain ⟨ty, hty1, htyd⟩ := parse_data_type_sound _ r1.1 r1.2.1 r1.2.2 (by rw [hdt])
      cases hcs : parse_constraintsF (r1.2.2.length + 1) r1.2.2 with
      | error e =>
        rw [hcs] at h
        exact absurd h (by simp)
      | ok r2 =>
        simp only [hcs] at h
        obtain ⟨cs, hcs1, hcsd⟩ := parse_constraintsF_sound _ _ r2.1 r2.2 (by rw [hcs])
        simp only [Except.ok.injEq, Prod.mk.injEq] at h
        obtain ⟨hcol, hts2⟩ := h
        refine ⟨i :: (ty ++ cs), ?_, ⟨i, ty, cs, rfl, hi, htyd, hcsd⟩⟩
        have hts1 : ts1 = ty ++ r1.2.2 := hty1
        rw [hts1, hcs1, ← hts2]
        simp [List.append_assoc]
  · rw [if_neg h1] at h
    exact absurd h (by simp)

theorem parse_columns_loop_sound : ∀ (fuel : Nat) (ts : List Token)
    (cols : List Column) (ts2 : List Token),
    parse_columns_loop fuel ts = .ok (cols, ts2) →
    ∃ cl, ts = cl ++ ts2 ∧ ColListToks cl := by
  intro fuel
  induction fuel with
  | zero =>
    intro ts cols ts2 h
    exact absurd h (by simp [parse_columns_loop])
  | succ f ih =>
    intro ts cols ts2 h
    simp only [parse_columns_loop] at h
    by_cases h1 : (peekT ts).type = .RIGHT_PAREN
    · rw [if_pos h1] at h
      simp only [Except.ok.injEq, Prod.mk.injEq] at h
      obtain ⟨hcols, hts2⟩ := h
      exact ⟨[], by rw [← hts2]; rfl, ColListToks.empty⟩
    · rw [if_neg h1] at h
      cases hcd : parse_column_definition ts with
      | error e =>
        rw [hcd] at h
        exact absurd h (by simp)
      | ok r1 =>
        simp only [hcd] at h
        obtain ⟨d, hd1, hdd⟩ := parse_column_definition_sound ts r1.1 r1.2 (by rw [hcd])
        by_cases h2 : (peekT r1.2).type = .COMMA
        · rw [if_pos h2] at h
          obtain ⟨c, tsc, htsc, hc⟩ := peekT_shape r1.2 _ h2 (by decide)
          cases hrec : parse_columns_loop f r1.2.tail with
          | error e =>
            rw [hrec] at h
            exact absurd h (by simp [Except.map])
          | ok r2 =>
            simp only [hrec, Except.map, Except.ok.injEq, Prod.mk.injEq] at h
            obtain ⟨hcols, hts2⟩ := h
            obtain ⟨cl1, hcl1, hcld⟩ := ih r1.2.tail r2.1 r2.2 (by rw [hrec])
            refine ⟨d ++ c :: cl1, ?_, ColListToks.comma d c cl1 hdd hc hcld⟩
            rw [hd1, htsc, ← hts2]
            have htail : (c :: tsc).tail = cl1 ++ r2.2 := by
              rw [← htsc]
              exact hcl1
            have htsc2 : tsc = cl1 ++ r2.2 := htail
            rw [htsc2]
            simp [List.append_assoc]
        · rw [if_neg h2] at h
          simp only [Except.ok.injEq, Prod.mk.injEq] at h
          obtain ⟨hcols, hts2⟩ := h
          exact ⟨d, by rw [← hts2]; exact hd1, ColListToks.last d hdd⟩

theorem parse_create_table_sound (ts : List Token) (stmt : Stmt) (ts2 : List Token)
    (h : parse_create_table ts = .ok (stmt, ts2)) :
    ∃ pre, ts = pre ++ ts2 ∧ CreateToks pre := by
  unfold parse_create_table at h
  cases hexp1 : expectT .CREATE "Expected CREATE" ts with
  | error e =>
    rw [hexp1] at h
    exact absurd h (by simp)
  | ok tsa =>
    simp only [hexp1] at h
    obtain ⟨hc, hta⟩ := expectT_ok _ _ _ _ hexp1
    obtain ⟨tc, tsr1, rfl, htc⟩ := peekT_shape ts _ hc (by decide)
    have hta2 : tsa = tsr1 := hta
    subst hta2
    cases hexp2 : expectT .TABLE "Expected TABLE" tsa with
    | error e =>
      rw [hexp2] at h
      exact absurd h (by simp)
    | ok tsb =>
      simp only [hexp2] at h
      obtain ⟨ht, htb⟩ := expectT_ok _ _ _ _ hexp2
      obtain ⟨tt, tsr2, rfl, htt⟩ := peekT_shape tsa _ ht (by decide)
      have htb2 : tsb = tsr2 := htb
      subst htb2
      by_cases h1 : (peekT tsb).type = .IDENTIFIER
      · rw [if_pos h1] at h
        obtain ⟨ti, tsr3, rfl, hti⟩ := peekT_shape tsb _ h1 (by decide)
        cases hexp3 : expectT .LEFT_PAREN "Expected left paren" (ti :: tsr3).tail with
        | error e =>
          rw [hexp3] at h
          exact absurd h (by simp)
        | ok tsc =>
          simp only [hexp3] at h
          obtain ⟨hl, htcx⟩ := expectT_ok _ _ _ _ hexp3
          obtain ⟨tl, tsr4, hts3, htl⟩ := peekT_shape tsr3 _ hl (by decide)
          subst hts3
          have htc2 : tsc = tsr4 := htcx
          subst htc2
          cases hloop : parse_columns_loop (tsc.length + 1) tsc with
          | error e =>
            rw [hloop] at h
            exact absurd h (by simp)
          | ok r1 =>
            simp only [hloop] at h
            obtain ⟨cl, hcl1, hcld⟩ := parse_columns_loop_sound _ tsc r1.1 r1.2 (by rw [hloop])
            cases hexp4 : expectT .RIGHT_PAREN "Expected right paren" r1.2 with
            | error e =>
              rw [hexp4] at h
              exact absurd h (by simp)
            | ok tsd =>
              simp only [hexp4] at h
              obtain ⟨hr, htd⟩ := expectT_ok _ _ _ _ hexp4
              obtain ⟨tr, tsr5, hts5, htr⟩ := peekT_shape r1.2 _ hr (by decide)
              simp only [Except.ok.injEq, Prod.mk.injEq] at h
              obtain ⟨hstmt, hts2⟩ := h
              refine ⟨tc :: tt :: ti :: tl :: (cl ++ [tr]),
                ?_, tc, tt, ti, tl, cl, tr, rfl, htc, htt, hti, htl, hcld, htr⟩
              have htd2 : tsd = tsr5 := by
                rw [htd, hts5]
                rfl
              rw [hcl1, hts5, ← hts2, htd2]
              simp [List.append_assoc]
      · rw [if_neg h1] at h
        exact absurd h (by simp)

theorem parse_constraintsF_complete (cs : List Token) (hcs : ConstrToks cs) :
    ∀ (fuel : Nat) (k : Token) (rest : List Token), cs.length < fuel →
    (k.type = .COMMA ∨ k.type = .RIGHT_PAREN) →
    ∃ out, parse_constraintsF fuel (cs ++ k :: rest) = .ok (out, k :: rest) := by
  induction hcs with
  | nil =>
    intro fuel k rest hf hk
    obtain ⟨f, rfl⟩ : ∃ f, fuel = f + 1 := ⟨fuel - 1, by omega⟩
    refine ⟨[], ?_⟩
    simp only [parse_constraintsF, List.nil_append]
    rw [if_neg (by rcases hk with hk | hk <;> simp [peekT, hk]),
      if_neg (by rcases hk with hk | hk <;> simp [peekT, hk])]
  | pk p q rest2 hp hq hcs2 ih =>
    intro fuel k rest hf hk
    obtain ⟨f, rfl⟩ : ∃ f, fuel = f + 1 := ⟨fuel - 1, by omega⟩
    obtain ⟨out, hout⟩ := ih f k rest (by simp only [List.length_cons] at hf ⊢; omega) hk
    refine ⟨.PRIMARY_KEY :: out, ?_⟩
    simp only [parse_constraintsF, List.cons_append]
    rw [if_pos (by simp [peekT, hp])]
    simp only [List.tail_cons]
    rw [show expectT .KEY "Expected KEY after PRIMARY" (q :: (rest2 ++ k :: rest)) =
      .ok (rest2 ++ k :: rest) from by simp [expectT, peekT, hq]]
    simp only [hout, Except.map]
  | nn p q rest2 hp hq hcs2 ih =>
    intro fuel k rest hf hk
    obtain ⟨f, rfl⟩ : ∃ f, fuel = f + 1 := ⟨fuel - 1, by omega⟩
    obtain ⟨out, hout⟩ := ih f k rest (by simp only [List.length_cons] at hf ⊢; omega) hk
    refine ⟨.NOT_NULL :: out, ?_⟩
    simp only [parse_constraintsF, List.cons_append]
    rw [if_neg (by simp [peekT, hp]), if_pos (by simp [peekT, hp])]
    simp only [List.tail_cons]
    rw [show expectT .NULL_KEYWORD "Expected NULL after NOT" (q :: (rest2 ++ k :: rest)) =
      .ok (rest2 ++ k :: rest) from by simp [expectT, peekT, hq]]
    simp only [hout, Except.map]

theorem parse_data_type_complete (ty : List Token) (hty : TypeToks ty)
    (hg : GoodLits ty) (rest : List Token) :
    ∃ dt len, parse_data_type (ty ++ rest) = .ok (dt, len, rest) := by
  cases hty with
  | int t ht =>
    refine ⟨.INTEGER, 0, ?_⟩
    simp [parse_data_type, peekT, ht]
  | bool t ht =>
    refine ⟨.BOOLEAN, 0, ?_⟩
    simp [parse_data_type, peekT, ht]
  | varchar t l n r ht hl hn hr =>
    obtain ⟨m, hm⟩ := hg n (by simp) hn
    refine ⟨.VARCHAR, m, ?_⟩
    simp [parse_data_type, peekT, expectT, ht, hl, hn, hr, hm]

theorem parse_column_definition_complete (d : List Token) (hd : ColDefToks d)
    (hg : GoodLits d) (k : Token) (rest : List Token)
    (hk : k.type = .COMMA ∨ k.type = .RIGHT_PAREN) :
    ∃ col, parse_column_definition (d ++ k :: rest) = .ok (col, k :: rest) := by
  obtain ⟨i, ty, cs, rfl, hi, hty, hcs⟩ := hd
  obtain ⟨dt, len, hdt⟩ := parse_data_type_complete ty hty
    (fun x hx h => hg x (by simp [hx]) h) (cs ++ k :: rest)
  obtain ⟨out, hout⟩ := parse_constraintsF_complete cs hcs ((cs ++ k :: rest).length + 1)
    k rest (by simp only [List.length_append, List.length_cons]; omega) hk
  refine ⟨⟨i.value, dt, len, decide (ConstraintType.PRIMARY_KEY ∈ out),
    decide (ConstraintType.NOT_NULL ∈ out)⟩, ?_⟩
  simp only [parse_column_definition, List.cons_append]
  rw [if_pos (by simp [peekT, hi])]
  simp only [List.tail_cons, List.append_assoc]
  simp only [hdt, hout]
  rfl

theorem parse_columns_loop_complete (cl : List Token) (hcl : ColListToks cl) :
    GoodLits cl → ∀ (fuel : Nat) (tr : Token) (rest : List Token), cl.length < fuel →
    tr.type = .RIGHT_PAREN →
    ∃ cols, parse_columns_loop fuel (cl ++ tr :: rest) = .ok (cols, tr :: rest) := by
  induction hcl with
  | empty =>
    intro hg fuel tr rest hf htr
    obtain ⟨f, rfl⟩ : ∃ f, fuel = f + 1 := ⟨fuel - 1, by omega⟩
    refine ⟨[], ?_⟩
    simp only [parse_columns_loop, List.nil_append]
    rw [if_pos (by simp [peekT, htr])]
  | last d hd =>
    intro hg fuel tr rest hf htr
    obtain ⟨f, rfl⟩ : ∃ f, fuel = f + 1 := ⟨fuel - 1, by omega⟩
    obtain ⟨col, hcol⟩ := parse_column_definition_complete d hd hg tr rest (Or.inr htr)
    refine ⟨[col], ?_⟩
    have hne : ¬ (peekT (d ++ tr :: rest)).type = .RIGHT_PAREN := by
      obtain ⟨i, ty, cs, hdeq, hi, _, _⟩ := hd
      rw [hdeq]
      simp [peekT, hi]
    simp only [parse_columns_loop]
    rw [if_neg hne]
    simp only [hcol]
    rw [if_neg (by simp [peekT, htr])]
  | comma d c rest2 hd hc hrest ih =>
    intro hg fuel tr rest hf htr
    obtain ⟨f, rfl⟩ : ∃ f, fuel = f + 1 := ⟨fuel - 1, by omega⟩
    have hgd : GoodLits d := fun x hx h => hg x (by simp [hx]) h
    have hgr : GoodLits rest2 := fun x hx h => hg x (by simp [hx]) h
    obtain ⟨col, hcol⟩ := parse_column_definition_complete d hd hgd c
      (rest2 ++ tr :: rest) (Or.inl hc)
    obtain ⟨cols, hcols⟩ := ih hgr f tr rest
      (by simp only [List.length_append, List.length_cons] at hf ⊢; omega) htr
    refine ⟨col :: cols, ?_⟩
    have hl0 : (d ++ c :: rest2) ++ tr :: rest = d ++ c :: (rest2 ++ tr :: rest) := by
      simp [List.append_assoc]
    rw [hl0]
    have hne : ¬ (peekT (d ++ c :: (rest2 ++ tr :: rest))).type = .RIGHT_PAREN := by
      obtain ⟨i, ty, cs, hdeq, hi, _, _⟩ := hd
      rw [hdeq]
      simp [peekT, hi]
    simp only [parse_columns_loop]
    rw [if_neg hne]
    simp only [hcol]
    rw [if_pos (by simp [peekT, hc])]
    simp only [List.tail_cons, hcols, Except.map]

theorem parse_create_table_complete (pre : List Token) (hpre : CreateToks pre)
    (hg : GoodLits pre) (rest : List Token) :
    ∃ stmt, parse_create_table (pre ++ rest) = .ok (stmt, rest) := by
  obtain ⟨tc, tt, ti, tl, cl, tr, rfl, htc, htt, hti, htl, hcl, htr⟩ := hpre
  have hgcl : GoodLits cl := fun x hx h => hg x (by simp [hx]) h
  obtain ⟨cols, hcols⟩ := parse_columns_loop_complete cl hcl hgcl
    ((cl ++ tr :: rest).length + 1) tr rest
    (by simp only [List.length_append, List.length_cons]; omega) htr
  refine ⟨.createTable ti.value cols, ?_⟩
  have hl0 : (tc :: tt :: ti :: tl :: (cl ++ [tr])) ++ rest =
      tc :: tt :: ti :: tl :: (cl ++ tr :: rest) := by
    simp [List.append_assoc]
  rw [hl0]
  have e1 : expectT .CREATE "Expected CREATE"
      (tc :: tt :: ti :: tl :: (cl ++ tr :: rest)) =
      .ok (tt :: ti :: tl :: (cl ++ tr :: rest)) := by
    simp [expectT, peekT, htc]
  have e2 : expectT .TABLE "Expected TABLE"
      (tt :: ti :: tl :: (cl ++ tr :: rest)) =
      .ok (ti :: tl :: (cl ++ tr :: rest)) := by
    simp [expectT, peekT, htt]
  have e3 : expectT .LEFT_PAREN "Expected left paren" (tl :: (cl ++ tr :: rest)) =
      .ok (cl ++ tr :: rest) := by
    simp [expectT, peekT, htl]
  have e4 : expectT .RIGHT_PAREN "Expected right paren" (tr :: rest) =
      .ok rest := by
    simp [expectT, peekT, htr]
  simp only [parse_create_table, e1]
  simp only [e2]
  rw [if_pos (show (peekT (ti :: tl :: (cl ++ tr :: rest))).type =
    TokenType.IDENTIFIER from hti)]
  simp only [List.tail_cons, e3]
  simp only [hcols]
  simp only [e4]
  rfl

/-- Claim C5: on a CREATE-headed token sequence whose integer literal tokens
carry text std::stoi accepts, parse succeeds exactly when some prefix of the
sequence derives CREATE TABLE identifier ( columnList ) with columnList a
possibly empty comma-separated column definition list allowing a trailing
comma; tokens past the closing paren are left unconsumed. -/
theorem C5_create_grammar (ts : List Token)
    (hhead : (peekT ts).type = .CREATE) (hg : GoodLits ts) :
    (∃ s r, parse ts = .ok (some s, r)) ↔
    (∃ pre rest, ts = pre ++ rest ∧ CreateToks pre) := by
  constructor
  · rintro ⟨s, r, hp⟩
    unfold parse at hp
    rw [if_neg (by rw [hhead]; decide)] at hp
    simp only [hhead] at hp
    cases hct : parse_create_table ts with
    | error e =>
      rw [hct] at hp
      exact absurd hp (by simp [Except.map])
    | ok pr =>
      obtain ⟨pre, hpre1, hpre2⟩ := parse_create_table_sound ts pr.1 pr.2 (by rw [hct])
      exact ⟨pre, pr.2, hpre1, hpre2⟩
  · rintro ⟨pre, rest, rfl, hpre⟩
    obtain ⟨stmt, hstmt⟩ := parse_create_table_complete pre hpre
      (fun x hx h => hg x (by simp [hx]) h) rest
    refine ⟨stmt, rest, ?_⟩
    unfold parse
    rw [if_neg (by rw [hhead]; decide)]
    simp only [hhead]
    simp only [hstmt, Except.map]

/-- parse accepts the empty column list, a trailing comma, and tokens after
the closing paren, against the claim's letter. -/
theorem C5_counterexample :
    parse [⟨.CREATE, "CREATE".toList, 1, 1⟩, ⟨.TABLE, "TABLE".toList, 1, 8⟩,
      ⟨.IDENTIFIER, "t".toList, 1, 14⟩, ⟨.LEFT_PAREN, "(".toList, 1, 16⟩,
      ⟨.RIGHT_PAREN, ")".toList, 1, 17⟩] =
      .ok (some (.createTable "t".toList []), []) ∧
    parse [⟨.CREATE, "CREATE".toList, 1, 1⟩, ⟨.TABLE, "TABLE".toList, 1, 8⟩,
      ⟨.IDENTIFIER, "t".toList, 1, 14⟩, ⟨.LEFT_PAREN, "(".toList, 1, 16⟩,
      ⟨.IDENTIFIER, "a".toList, 1, 17⟩, ⟨.INTEGER, "INTEGER".toList, 1, 19⟩,
      ⟨.COMMA, ",".toList, 1, 27⟩, ⟨.RIGHT_PAREN, ")".toList, 1, 28⟩] =
      .ok (some (.createTable "t".toList [⟨"a".toList, .INTEGER, 0, false, false⟩]), []) ∧
    parse [⟨.CREATE, "CREATE".toList, 1, 1⟩, ⟨.TABLE, "TABLE".toList, 1, 8⟩,
      ⟨.IDENTIFIER, "t".toList, 1, 14⟩, ⟨.LEFT_PAREN, "(".toList, 1, 16⟩,
      ⟨.IDENTIFIER, "a".toList, 1, 17⟩, ⟨.INTEGER, "INTEGER".toList, 1, 19⟩,
      ⟨.RIGHT_PAREN, ")".toList, 1, 27⟩, ⟨.SELECT, "SELECT".toList, 1, 29⟩] =
      .ok (some (.createTable "t".toList [⟨"a".toList, .INTEGER, 0, false, false⟩]),
        [⟨.SELECT, "SELECT".toList, 1, 29⟩]) := by
  refine ⟨by decide, by decide, by decide⟩

theorem C5_witness :
    ∃ s r, parse [⟨.CREATE, "CREATE".toList, 1, 1⟩, ⟨.TABLE, "TABLE".toList, 1, 8⟩,
      ⟨.IDENTIFIER, "t".toList, 1, 14⟩, ⟨.LEFT_PAREN, "(".toList, 1, 16⟩,
      ⟨.IDENTIFIER, "a".toList, 1, 17⟩, ⟨.VARCHAR, "VARCHAR".toList, 1, 19⟩,
      ⟨.LEFT_PAREN, "(".toList, 1, 26⟩, ⟨.INTEGER_LITERAL, "5".toList, 1, 27⟩,
      ⟨.RIGHT_PAREN, ")".toList, 1, 28⟩, ⟨.RIGHT_PAREN, ")".toList, 1, 30⟩] =
      .ok (some s, r) :=
  (C5_create_grammar _ (by decide)
    (by
      intro t ht hil
      simp only [List.mem_cons, List.not_mem_nil, or_false] at ht
      rcases ht with rfl | rfl | rfl | rfl | rfl | rfl | rfl | rfl | rfl | rfl
      · exact absurd hil (by decide)
      · exact absurd hil (by decide)
      · exact absurd hil (by decide)
      · exact absurd hil (by decide)
      · exact absurd hil (by decide)
      · exact absurd hil (by decide)
      · exact absurd hil (by decide)
      · exact ⟨5, by decide⟩
      · exact absurd hil (by decide)
      · exact absurd hil (by decide))).mpr
    ⟨[⟨.CREATE, "CREATE".toList, 1, 1⟩, ⟨.TABLE, "TABLE".toList, 1, 8⟩,
      ⟨.IDENTIFIER, "t".toList, 1, 14⟩, ⟨.LEFT_PAREN, "(".toList, 1, 16⟩,
      ⟨.IDENTIFIER, "a".toList, 1, 17⟩, ⟨.VARCHAR, "VARCHAR".toList, 1, 19⟩,
      ⟨.LEFT_PAREN, "(".toList, 1, 26⟩, ⟨.INTEGER_LITERAL, "5".toList, 1, 27⟩,
      ⟨.RIGHT_PAREN, ")".toList, 1, 28⟩, ⟨.RIGHT_PAREN, ")".toList, 1, 30⟩], [],
      by simp,
      ⟨⟨.CREATE, "CREATE".toList, 1, 1⟩, ⟨.TABLE, "TABLE".toList, 1, 8⟩,
        ⟨.IDENTIFIER, "t".toList, 1, 14⟩, ⟨.LEFT_PAREN, "(".toList, 1, 16⟩,
        [⟨.IDENTIFIER, "a".toList, 1, 17⟩, ⟨.VARCHAR, "VARCHAR".toList, 1, 19⟩,
          ⟨.LEFT_PAREN, "(".toList, 1, 26⟩, ⟨.INTEGER_LITERAL, "5".toList, 1, 27⟩,
          ⟨.RIGHT_PAREN, ")".toList, 1, 28⟩],
        ⟨.RIGHT_PAREN, ")".toList, 1, 30⟩, by decide, rfl, rfl, rfl, rfl,
        ColListToks.last _ ⟨⟨.IDENTIFIER, "a".toList, 1, 17⟩,
          [⟨.VARCHAR, "VARCHAR".toList, 1, 19⟩, ⟨.LEFT_PAREN, "(".toList, 1, 26⟩,
            ⟨.INTEGER_LITERAL, "5".toList, 1, 27⟩, ⟨.RIGHT_PAREN, ")".toList, 1, 28⟩],
          [], by decide, rfl, TypeToks.varchar _ _ _ _ rfl rfl rfl rfl, ConstrToks.nil⟩,
        rfl⟩⟩

end SqlMint
